import Mathlib

/-!
# Verification of the SAM entity-resolution engine

A shallow embedding of the entity-resolution core of the repository
(webhook company-matching module): company-name normalization, bigram
Dice similarity, combined match scoring, the multi-strategy SAM search
chain with rate-limit retry, threshold-based classification, and the
request deduplicator.  Strings are modelled as `List Char`; JavaScript
numbers used for scores are modelled as exact rationals (`ℚ`); the
HTTP backend is modelled as an oracle `Nat → FetchResult` giving the
outcome of the n-th HTTP fetch, and each search function additionally
returns the trace of queries it issued.
-/

namespace SamApp

/-- `str s` is the character list of a string literal (used for concrete inputs). -/
def str (s : String) : List Char := s.toList

/-! ## Character classes

The source uses JavaScript regexes.  `\w` is `[A-Za-z0-9_]`; `\s` is the
ECMAScript WhiteSpace / LineTerminator set; `[^a-z0-9]` (after
`toLowerCase`) keeps only lowercase ASCII alphanumerics.  JS
`toLowerCase` is modelled on the ASCII range (as Lean's `Char.toLower`). -/

/-- JS `\w` character class: `[A-Za-z0-9_]`. -/
def isWordChar (c : Char) : Bool :=
  (65 ≤ c.toNat && c.toNat ≤ 90) || (97 ≤ c.toNat && c.toNat ≤ 122) ||
    (48 ≤ c.toNat && c.toNat ≤ 57) || c.toNat = 95

/-- JS `\s` character class (ECMAScript WhiteSpace ∪ LineTerminator). -/
def isJsWs (c : Char) : Bool :=
  c.toNat = 32 || c.toNat = 9 || c.toNat = 10 || c.toNat = 11 || c.toNat = 12 ||
    c.toNat = 13 || c.toNat = 0xa0 || c.toNat = 0x1680 ||
    (0x2000 ≤ c.toNat && c.toNat ≤ 0x200a) || c.toNat = 0x2028 || c.toNat = 0x2029 ||
    c.toNat = 0x202f || c.toNat = 0x205f || c.toNat = 0x3000 || c.toNat = 0xfeff

/-- Lowercase ASCII alphanumeric, the class kept by `replace(/[^a-z0-9]/g, '')`. -/
def isLowerAlnum (c : Char) : Bool :=
  (97 ≤ c.toNat && c.toNat ≤ 122) || (48 ≤ c.toNat && c.toNat ≤ 57)

/-! ## Dice coefficient (`diceCoefficient` in the source)

```js
function diceCoefficient(str1, str2) {
  const s1 = str1.toLowerCase().replace(/[^a-z0-9]/g, '');
  const s2 = str2.toLowerCase().replace(/[^a-z0-9]/g, '');
  if (s1 === s2) return 1;
  if (s1.length < 2 || s2.length < 2) return 0;
  const bigrams1 = new Set();
  for (let i = 0; i < s1.length - 1; i++) bigrams1.add(s1.substring(i, i + 2));
  let matches = 0;
  for (let i = 0; i < s2.length - 1; i++) {
    const bigram = s2.substring(i, i + 2);
    if (bigrams1.has(bigram)) { matches++; bigrams1.delete(bigram); }
  }
  return (2 * matches) / (s1.length + s2.length - 2);
}
``` -/

/-- Case-fold and strip non-alphanumerics: `.toLowerCase().replace(/[^a-z0-9]/g, '')`. -/
def foldAlnum (s : List Char) : List Char :=
  (s.map Char.toLower).filter isLowerAlnum

/-- All overlapping 2-character substrings, in order: the loop
`for (i = 0; i < s.length - 1; i++) s.substring(i, i + 2)`. -/
def bigrams (s : List Char) : List (Char × Char) := s.zip s.tail

/-- `Set.add`: append unless already present (JS `Set` keeps insertion order). -/
def addToSet (s : List (Char × Char)) (b : Char × Char) : List (Char × Char) :=
  if b ∈ s then s else s ++ [b]

/-- The `bigrams1` set after the first loop. -/
def bigramSet (s : List Char) : List (Char × Char) :=
  (bigrams s).foldl addToSet []

/-- The second loop: for each bigram of `s2` in order, if it is in the set,
count it and delete it from the set (`Set.delete`; on a duplicate-free list,
deletion is removal of every copy of that element). -/
def countMatches : List (Char × Char) → List (Char × Char) → ℕ
  | _, [] => 0
  | set, b :: rest =>
    if b ∈ set then countMatches (set.filter fun x => x ≠ b) rest + 1
    else countMatches set rest

/-- The bigram Dice similarity scorer of the source. -/
def diceCoefficient (str1 str2 : List Char) : ℚ :=
  let s1 := foldAlnum str1
  let s2 := foldAlnum str2
  if s1 = s2 then 1
  else if s1.length < 2 ∨ s2.length < 2 then 0
  else (2 * countMatches (bigramSet s1) (bigrams s2)) /
        ((s1.length : ℚ) + (s2.length : ℚ) - 2)

/-! ## Company-name normalizer (`normalizeCompanyName` in the source)

```js
function normalizeCompanyName(name) {
  return name
    .toLowerCase()
    .replace(/\b(inc|incorporated|llc|ltd|limited|corp|corporation|co|company)\b\.?/gi, '')
    .replace(/[^\w\s]/g, '')
    .replace(/\s+/g, ' ')
    .trim();
}
```

The suffix regex is anchored by `\b` on both sides of the alternation and
every alternative consists of word characters only, so a match is exactly a
maximal run of word characters (a token) equal to one of the alternatives,
together with one immediately following `'.'` if present (`\.?` is greedy).
We embed this by chunking the string into maximal word-character runs and
single non-word characters, deleting the suffix tokens (and a directly
following `'.'` chunk), and flattening back. -/

/-- A chunk of a string: a maximal run of word characters, or a single
non-word character. -/
inductive Chunk where
  | word (w : List Char)
  | punct (c : Char)
deriving DecidableEq

/-- Chunking worker; `acc` is the reversed current run of word characters. -/
def chunkAux : List Char → List Char → List Chunk
  | [], [] => []
  | acc@(_ :: _), [] => [.word acc.reverse]
  | acc, c :: rest =>
    if isWordChar c then chunkAux (c :: acc) rest
    else
      match acc with
      | [] => .punct c :: chunkAux [] rest
      | _ :: _ => .word acc.reverse :: .punct c :: chunkAux [] rest

/-- Decompose a string into maximal word runs and single non-word characters. -/
def chunk (l : List Char) : List Chunk := chunkAux [] l

/-- The legal-entity suffix alternatives of the regex. -/
def suffixTokens : List (List Char) :=
  [str "inc", str "incorporated", str "llc", str "ltd", str "limited",
   str "corp", str "corporation", str "co", str "company"]

/-- Worker for suffix deletion; the flag records that the directly preceding
chunk was a suffix token that was deleted, so that a `'.'` found right after
it is consumed as well (the greedy `\.?` of the regex). -/
def stripAux : Bool → List Chunk → List Chunk
  | _, [] => []
  | prevDel, .punct c :: rest =>
    if prevDel && c = '.' then stripAux false rest
    else .punct c :: stripAux false rest
  | _, .word w :: rest =>
    if w ∈ suffixTokens then stripAux true rest
    else .word w :: stripAux false rest

/-- Delete suffix tokens (whole word chunks only) and one `'.'` chunk
immediately following a deleted token — the action of
`replace(/\b(inc|…|company)\b\.?/gi, '')` on a chunked string. -/
def stripChunks (cs : List Chunk) : List Chunk := stripAux false cs

/-- Flatten a chunk list back to a string. -/
def unChunks : List Chunk → List Char
  | [] => []
  | .word w :: r => w ++ unChunks r
  | .punct c :: r => c :: unChunks r

/-- Worker for `replace(/\s+/g, ' ')`; the flag records whether the previous
character was whitespace (i.e. we are inside a run already replaced). -/
def collapseWsAux : Bool → List Char → List Char
  | _, [] => []
  | prevWs, c :: rest =>
    if isJsWs c then
      if prevWs then collapseWsAux true rest else ' ' :: collapseWsAux true rest
    else c :: collapseWsAux false rest

/-- `replace(/\s+/g, ' ')`: each maximal whitespace run becomes one space. -/
def collapseWs (l : List Char) : List Char := collapseWsAux false l

/-- `String.prototype.trim`: strip whitespace from both ends. -/
def trimWs (l : List Char) : List Char :=
  ((l.dropWhile isJsWs).reverse.dropWhile isJsWs).reverse

/-- The company-name normalizer of the source. -/
def normalizeCompanyName (name : List Char) : List Char :=
  let lowered := name.map Char.toLower
  let suffixStripped := unChunks (stripChunks (chunk lowered))
  let noPunct := suffixStripped.filter (fun c => isWordChar c || isJsWs c)
  trimWs (collapseWs noPunct)

/-! ## Candidates and combined match score

A retrieved SAM record, after `normalizeSamEntity`, in the shape the scoring
code reads: legal name, DBA (trade) name and physical-address state code.
Missing optional strings become `''` in the source (JS falsy), so absence is
modelled as the empty list. -/

structure SamEntity where
  legalBusinessName : List Char
  dbaName : List Char
  stateCode : List Char
deriving DecidableEq

/-- The subject of a resolution: the company's `name` and `state` properties
(`''` = absent, JS falsy). -/
structure CompanyQuery where
  name : List Char
  state : List Char
deriving DecidableEq

/-- The combined match score computed per candidate in `processCompanyCreation`:
`score = Math.min(1, Math.max(nameScore, dbaScore) + stateBonus)` where
`dbaScore` is 0 unless a DBA name is present and `stateBonus` is 0.1 when both
state strings are present and equal case-insensitively. -/
def matchScore (q : CompanyQuery) (e : SamEntity) : ℚ :=
  let nameScore := diceCoefficient (normalizeCompanyName q.name)
    (normalizeCompanyName e.legalBusinessName)
  let dbaScore : ℚ :=
    if e.dbaName = [] then 0
    else diceCoefficient (normalizeCompanyName q.name) (normalizeCompanyName e.dbaName)
  let stateBonus : ℚ :=
    if q.state ≠ [] ∧ e.stateCode ≠ [] ∧
        q.state.map Char.toLower = e.stateCode.map Char.toLower then 1/10 else 0
  min 1 (max nameScore dbaScore + stateBonus)

/-! ## Resolution classification

The disposition logic of `processCompanyCreation` (after retrieval): map each
candidate to its combined score, keep scores ≥ 0.5, sort by score descending
(JS `Array.prototype.sort` is stable; the comparator is `b.score - a.score`),
then: empty retrieval → `no_match` with `[]`; no candidate past the floor →
`no_match` with the first 5 raw candidates; best ≥ 0.55 → auto-link; else
`pending` with the top 5 scored candidates. -/

inductive ResolutionOutcome where
  | noMatch (sampleRaw : List SamEntity)
  | pending (top : List (SamEntity × ℚ))
  | matched (entity : SamEntity) (score : ℚ)
deriving DecidableEq

/-- Descending-score order used by `.sort((a, b) => b.score - a.score)`. -/
def scoreDesc (a b : SamEntity × ℚ) : Bool := b.2 ≤ a.2

/-- Each candidate paired with its combined score (the `.map` stage). -/
def scoredList (q : CompanyQuery) (samEntities : List SamEntity) :
    List (SamEntity × ℚ) :=
  samEntities.map fun e => (e, matchScore q e)

/-- The `matches` local of the source: score, filter at the 0.5 floor, sort
descending (JS sort is stable). -/
def sortedMatches (q : CompanyQuery) (samEntities : List SamEntity) :
    List (SamEntity × ℚ) :=
  ((scoredList q samEntities).filter fun m => (1 : ℚ)/2 ≤ m.2).mergeSort scoreDesc

def classifyCandidates (q : CompanyQuery) (samEntities : List SamEntity) :
    ResolutionOutcome :=
  if samEntities.isEmpty then .noMatch []
  else
    match sortedMatches q samEntities with
    | [] => .noMatch (samEntities.take 5)
    | best :: rest =>
      if (11 : ℚ)/20 ≤ best.2 then .matched best.1 best.2
      else .pending ((best :: rest).take 5)

/-! ## SAM.gov retrieval: `samFetch` and the strategy chain of `searchSamApi`

The HTTP backend is an oracle `Nat → FetchResult`: the n-th fetch issued by
the function gets response `backend n`.  Each search returns, besides its
result, the trace of `(strategy, query)` pairs, one per HTTP fetch issued. -/

/-- Outcome of one HTTP fetch against the registry. -/
inductive FetchResult where
  /-- 2xx; the parsed JSON body's optional `entityData` array. -/
  | ok (entityData : Option (List SamEntity))
  /-- HTTP 429. -/
  | rateLimited
  /-- Any other non-OK status. -/
  | httpError
deriving DecidableEq

/-- The four strategies, named as in the source's `strategyName` argument:
`'name+state'`, `'name only'`, `'domain'`, `'samSearch'`. -/
inductive Strategy where
  | nameState
  | nameOnly
  | byDomain
  | samSearch
deriving DecidableEq

/-- Position of a strategy in the chain. -/
def Strategy.idx : Strategy → ℕ
  | .nameState => 1
  | .nameOnly => 2
  | .byDomain => 3
  | .samSearch => 4

/-- The query parameters of a fetch (besides `api_key` and
`registrationStatus: 'A'`, which every strategy sends). -/
inductive SamQuery where
  /-- `legalBusinessName` with optional `physicalAddressStateCode`. -/
  | byLegalName (name : List Char) (state : Option (List Char))
  /-- `entityURL`. -/
  | byEntityURL (domain : List Char)
  /-- `samSearch` keyword parameter. -/
  | byKeyword (name : List Char)
deriving DecidableEq

/-- State threaded through the strategy chain: current `data.entityData`,
the index of the next HTTP fetch, and the trace of issued fetches. -/
structure ChainState where
  entityData : Option (List SamEntity)
  next : ℕ
  trace : List (Strategy × SamQuery)
deriving DecidableEq

/-- `samFetch`: one fetch; on a 429 wait and retry exactly once; a failed
retry or any other non-OK response yields `{ entityData: [] }`. -/
def samFetch (backend : ℕ → FetchResult) (k : ℕ) (strat : Strategy)
    (q : SamQuery) : ChainState :=
  match backend k with
  | .ok ed => ⟨ed, k + 1, [(strat, q)]⟩
  | .rateLimited =>
    match backend (k + 1) with
    | .ok ed => ⟨ed, k + 2, [(strat, q), (strat, q)]⟩
    | _ => ⟨some [], k + 2, [(strat, q), (strat, q)]⟩
  | .httpError => ⟨some [], k + 1, [(strat, q)]⟩

/-- `!data.entityData || data.entityData.length === 0`. -/
def noResults (d : Option (List SamEntity)) : Bool :=
  match d with
  | none => true
  | some l => l.isEmpty

/-- Run a fallback strategy: fires only when the data so far is empty and the
strategy's own guard holds; otherwise the state passes through unchanged. -/
def stepStrategy (backend : ℕ → FetchResult) (st : ChainState) (guard : Bool)
    (strat : Strategy) (q : SamQuery) : ChainState :=
  if noResults st.entityData && guard then
    let s := samFetch backend st.next strat q
    ⟨s.entityData, s.next, st.trace ++ s.trace⟩
  else st

/-- `searchSamApi`: normalize the name, then run the four strategies in
order, each guarded as in the source (strategy 2 only when a state was given,
strategy 3 only when a domain is present, strategy 4 unconditionally), each
firing only while there are still no results.  Returns `data.entityData || []`
and the trace of issued fetches. -/
def searchSamApi (backend : ℕ → FetchResult) (name state domain : List Char) :
    List SamEntity × List (Strategy × SamQuery) :=
  let n := normalizeCompanyName name
  let st₁ := samFetch backend 0 .nameState
    (.byLegalName n (if state.isEmpty then none else some state))
  let st₂ := stepStrategy backend st₁ (!state.isEmpty) .nameOnly (.byLegalName n none)
  let st₃ := stepStrategy backend st₂ (!domain.isEmpty) .byDomain (.byEntityURL domain)
  let st₄ := stepStrategy backend st₃ true .samSearch (.byKeyword n)
  (st₄.entityData.getD [], st₄.trace)

/-- The front of `processCompanyCreation` on the API path with a cold cache:
a company with a falsy (empty) `name` is skipped before any search; otherwise
the SAM search runs and the outcome is classified.  The issued-fetch trace is
returned alongside. -/
inductive ProcessResult where
  | skippedNoName
  | resolved (o : ResolutionOutcome)
deriving DecidableEq

def processCompanyApi (backend : ℕ → FetchResult)
    (name state domain : List Char) : ProcessResult × List (Strategy × SamQuery) :=
  if name.isEmpty then (.skippedNoName, [])
  else
    let (ents, tr) := searchSamApi backend name state domain
    (.resolved (classifyCandidates ⟨name, state⟩ ents), tr)

/-! ## Request deduplicator

The dedup logic inlined in the webhook handler:
```js
const lastProcessed = recentlyProcessed.get(dedupKey);
if (lastProcessed && Date.now() - lastProcessed < DEDUP_TTL) continue; // skip
recentlyProcessed.set(dedupKey, Date.now());
```
The marker map is a function from keys to optional timestamps (milliseconds);
`lastProcessed` is truthy only when present and nonzero. -/

def DEDUP_TTL : ℤ := 30 * 1000

/-- One dedup check at time `now`: `(shouldProcess?, updated map)`. -/
def shouldProcess (m : List Char → Option ℤ) (key : List Char) (now : ℤ) :
    Bool × (List Char → Option ℤ) :=
  match m key with
  | some last =>
    if last ≠ 0 ∧ now - last < DEDUP_TTL then (false, m)
    else (true, fun k => if k = key then some now else m k)
  | none => (true, fun k => if k = key then some now else m k)

/-! ## Spec-side definition for the Dice numerator (refinement target)

The spec describes the numerator as the size of the *multiset* intersection
of the two bigram multisets ("each occurrence consumed at most once").
`List.bagInter` is exactly the multiset intersection of two lists. -/

/-- Modelled from the spec's words: Dice score with a multiset-intersection
numerator. -/
def diceMultisetSpec (str1 str2 : List Char) : ℚ :=
  let s1 := foldAlnum str1
  let s2 := foldAlnum str2
  if s1 = s2 then 1
  else if s1.length < 2 ∨ s2.length < 2 then 0
  else (2 * ((bigrams s1).bagInter (bigrams s2)).length) /
        ((s1.length : ℚ) + (s2.length : ℚ) - 2)

/-! ## Analysis of the Dice scorer -/

lemma mem_addToSet {s : List (Char × Char)} {b x : Char × Char} :
    x ∈ addToSet s b ↔ x ∈ s ∨ x = b := by
  unfold addToSet
  split
  · next h => exact ⟨fun hx => Or.inl hx, fun hx => hx.elim id (fun e => e ▸ h)⟩
  · simp

lemma nodup_addToSet {s : List (Char × Char)} {b : Char × Char} (h : s.Nodup) :
    (addToSet s b).Nodup := by
  unfold addToSet
  split
  · exact h
  · next hb => simpa [List.nodup_append] using ⟨h, by simpa using hb⟩

lemma mem_foldl_addToSet {l s : List (Char × Char)} {x : Char × Char} :
    x ∈ l.foldl addToSet s ↔ x ∈ s ∨ x ∈ l := by
  induction l generalizing s with
  | nil => simp
  | cons b l ih =>
    simp only [List.foldl_cons, ih, mem_addToSet, List.mem_cons]
    tauto

lemma nodup_foldl_addToSet {l s : List (Char × Char)} (h : s.Nodup) :
    (l.foldl addToSet s).Nodup := by
  induction l generalizing s with
  | nil => exact h
  | cons b l ih => exact ih (nodup_addToSet h)

lemma mem_bigramSet {s : List Char} {x : Char × Char} :
    x ∈ bigramSet s ↔ x ∈ bigrams s := by
  unfold bigramSet
  simp [mem_foldl_addToSet]

lemma nodup_bigramSet (s : List Char) : (bigramSet s).Nodup :=
  nodup_foldl_addToSet List.nodup_nil

/-- A duplicate-free list containing `b` is a permutation of `b` consed onto
the list with `b` filtered out. -/
lemma perm_cons_filter_ne {l : List (Char × Char)} {b : Char × Char}
    (hnd : l.Nodup) (hb : b ∈ l) :
    l.Perm (b :: l.filter fun x => x ≠ b) := by
  induction l with
  | nil => cases hb
  | cons a t ih =>
    rcases List.mem_cons.mp hb with rfl | hbt
    · have hnotmem : b ∉ t := (List.nodup_cons.mp hnd).1
      have hft : (t.filter fun x => x ≠ b) = t :=
        List.filter_eq_self.mpr fun x hx => by
          simpa using fun h : x = b => hnotmem (h ▸ hx)
      rw [List.filter_cons, if_neg (by simp), hft]
    · have hne : a ≠ b := fun h => (List.nodup_cons.mp hnd).1 (h ▸ hbt)
      have step := ((ih (List.nodup_cons.mp hnd).2 hbt).cons a).trans
        (List.Perm.swap b a _)
      rw [List.filter_cons, if_pos (by simp [hne])]
      exact step

/-- The matching loop consumes each element of the (duplicate-free) set at
most once, so it counts exactly the set elements occurring in `l`. -/
lemma countMatches_eq_length_filter (set l : List (Char × Char)) (h : set.Nodup) :
    countMatches set l = (set.filter (fun b => b ∈ l)).length := by
  induction l generalizing set with
  | nil => simp [countMatches]
  | cons b rest ih =>
    by_cases hb : b ∈ set
    · rw [show countMatches set (b :: rest) =
          countMatches (set.filter fun x => x ≠ b) rest + 1 by
        simp [countMatches, hb]]
      rw [ih _ (h.filter _)]
      have hperm := (perm_cons_filter_ne h hb).filter (fun x => x ∈ b :: rest)
      rw [hperm.length_eq]
      have hcong : List.filter (fun x => x ∈ b :: rest) (set.filter fun x => x ≠ b) =
          List.filter (fun x => x ∈ rest) (set.filter fun x => x ≠ b) := by
        refine List.filter_congr fun x hx => ?_
        have hne : x ≠ b := by simpa using (List.mem_filter.mp hx).2
        simp [List.mem_cons, hne]
      rw [List.filter_cons, if_pos (by simp)]
      exact congrArg (fun n => n + 1) (congrArg List.length hcong.symm)
    · rw [show countMatches set (b :: rest) = countMatches set rest by
        simp [countMatches, hb]]
      rw [ih _ h]
      refine congrArg _ (List.filter_congr fun x hx => ?_).symm
      have hne : x ≠ b := fun hxb => hb (hxb ▸ hx)
      simp [List.mem_cons, hne]

/-- The number of matches is the number of *distinct* bigrams common to the
two strings. -/
lemma countMatches_bigramSet (s₁ s₂ : List Char) :
    countMatches (bigramSet s₁) (bigrams s₂) =
      ((bigrams s₁).toFinset ∩ (bigrams s₂).toFinset).card := by
  rw [countMatches_eq_length_filter _ _ (nodup_bigramSet s₁)]
  have hnodup := (nodup_bigramSet s₁).filter (fun b => b ∈ bigrams s₂)
  rw [← List.toFinset_card_of_nodup hnodup, List.toFinset_filter]
  congr 1
  ext x
  simp [List.mem_toFinset, mem_bigramSet]

lemma diceCoefficient_of_ne {a b : List Char} (h1 : foldAlnum a ≠ foldAlnum b)
    (h2 : ¬((foldAlnum a).length < 2 ∨ (foldAlnum b).length < 2)) :
    diceCoefficient a b =
      2 * (countMatches (bigramSet (foldAlnum a)) (bigrams (foldAlnum b)) : ℚ) /
        (((foldAlnum a).length : ℚ) + ((foldAlnum b).length : ℚ) - 2) := by
  unfold diceCoefficient
  rw [if_neg h1, if_neg h2]

lemma diceMultisetSpec_of_ne {a b : List Char} (h1 : foldAlnum a ≠ foldAlnum b)
    (h2 : ¬((foldAlnum a).length < 2 ∨ (foldAlnum b).length < 2)) :
    diceMultisetSpec a b =
      2 * (((bigrams (foldAlnum a)).bagInter (bigrams (foldAlnum b))).length : ℚ) /
        (((foldAlnum a).length : ℚ) + ((foldAlnum b).length : ℚ) - 2) := by
  unfold diceMultisetSpec
  rw [if_neg h1, if_neg h2]

/-- Claim C4: the implemented Dice scorer is symmetric,
`similarity(a, b) = similarity(b, a)`, for every pair of strings. -/
theorem diceCoefficient_comm (a b : List Char) :
    diceCoefficient a b = diceCoefficient b a := by
  unfold diceCoefficient
  by_cases h : foldAlnum a = foldAlnum b
  · rw [if_pos h, if_pos h.symm]
  · rw [if_neg h, if_neg (Ne.symm h)]
    by_cases hs : (foldAlnum a).length < 2 ∨ (foldAlnum b).length < 2
    · rw [if_pos hs, if_pos (Or.symm hs)]
    · rw [if_neg hs, if_neg (fun hc => hs (Or.symm hc))]
      rw [countMatches_bigramSet, countMatches_bigramSet, Finset.inter_comm]
      ring

/-- Claim C3, counterexample: at `a = "aaa"`, `b = "aaaa"` the folded forms
are distinct and each has length ≥ 2, yet the implemented score (2/5) differs
from the multiset-intersection formula of the claim (4/5): the implementation
keeps the first string's bigrams in a `Set`, so a bigram occurring twice in
both strings is matched only once. -/
theorem dice_multiset_formula_counterexample :
    foldAlnum (str "aaa") ≠ foldAlnum (str "aaaa") ∧
    2 ≤ (foldAlnum (str "aaa")).length ∧ 2 ≤ (foldAlnum (str "aaaa")).length ∧
    diceCoefficient (str "aaa") (str "aaaa") ≠
      diceMultisetSpec (str "aaa") (str "aaaa") := by
  refine ⟨by decide, by decide, by decide, ?_⟩
  have h1 : diceCoefficient (str "aaa") (str "aaaa") = 2/5 := by
    rw [diceCoefficient_of_ne (by decide) (by decide)]
    rw [show countMatches (bigramSet (foldAlnum (str "aaa")))
        (bigrams (foldAlnum (str "aaaa"))) = 1 by decide]
    rw [show (foldAlnum (str "aaa")).length = 3 by decide]
    rw [show (foldAlnum (str "aaaa")).length = 4 by decide]
    norm_num
  have h2 : diceMultisetSpec (str "aaa") (str "aaaa") = 4/5 := by
    rw [diceMultisetSpec_of_ne (by decide) (by decide)]
    rw [show ((bigrams (foldAlnum (str "aaa"))).bagInter
        (bigrams (foldAlnum (str "aaaa")))).length = 2 by decide]
    rw [show (foldAlnum (str "aaa")).length = 3 by decide]
    rw [show (foldAlnum (str "aaaa")).length = 4 by decide]
    norm_num
  rw [h1, h2]
  norm_num

/-- Claim C3 (amended): for distinct folded forms of length ≥ 2 each, the
score is 2 times the number of *distinct* bigrams common to the two folded
strings (the first string's bigram multiset is collapsed to a set, and each
set element is consumed at most once), divided by `len(a) + len(b) − 2`. -/
theorem dice_eq_set_intersection (a b : List Char)
    (h1 : foldAlnum a ≠ foldAlnum b) (h2 : 2 ≤ (foldAlnum a).length)
    (h3 : 2 ≤ (foldAlnum b).length) :
    diceCoefficient a b =
      2 * (((bigrams (foldAlnum a)).toFinset ∩ (bigrams (foldAlnum b)).toFinset).card : ℚ) /
        (((foldAlnum a).length : ℚ) + ((foldAlnum b).length : ℚ) - 2) := by
  rw [diceCoefficient_of_ne h1 (by omega), countMatches_bigramSet]

/-- Witness for the amended claim C3 at `a = "ab"`, `b = "bc"`. -/
theorem dice_eq_set_intersection_witness :
    diceCoefficient (str "ab") (str "bc") =
      2 * (((bigrams (foldAlnum (str "ab"))).toFinset ∩
            (bigrams (foldAlnum (str "bc"))).toFinset).card : ℚ) /
        (((foldAlnum (str "ab")).length : ℚ) + ((foldAlnum (str "bc")).length : ℚ) - 2) :=
  dice_eq_set_intersection (str "ab") (str "bc") (by decide) (by decide) (by decide)

/-- Claim C2: for subject `"Honeywell"` and a candidate with legal name
`"Honeywell International Inc"`, no DBA name and no state hint, the combined
match score is exactly 16/29 ≈ 0.5517, which clears the 0.55 auto-link
threshold. -/
theorem honeywell_clears_auto_link_threshold :
    matchScore ⟨str "Honeywell", []⟩ ⟨str "Honeywell International Inc", [], []⟩ = 16/29 ∧
    (11 : ℚ)/20 ≤
      matchScore ⟨str "Honeywell", []⟩ ⟨str "Honeywell International Inc", [], []⟩ := by
  have hd : diceCoefficient (normalizeCompanyName (str "Honeywell"))
      (normalizeCompanyName (str "Honeywell International Inc")) = 16/29 := by
    rw [diceCoefficient_of_ne (by decide) (by decide)]
    rw [show countMatches
        (bigramSet (foldAlnum (normalizeCompanyName (str "Honeywell"))))
        (bigrams (foldAlnum (normalizeCompanyName (str "Honeywell International Inc")))) = 8
      by decide]
    rw [show (foldAlnum (normalizeCompanyName (str "Honeywell"))).length = 9 by decide]
    rw [show (foldAlnum (normalizeCompanyName
        (str "Honeywell International Inc"))).length = 22 by decide]
    norm_num
  have hval : matchScore ⟨str "Honeywell", []⟩
      ⟨str "Honeywell International Inc", [], []⟩ = 16/29 := by
    unfold matchScore
    rw [if_pos rfl, if_neg (by simp), hd]
    norm_num [max_def, min_def]
  exact ⟨hval, by rw [hval]; norm_num⟩

/-- Claim C6: suffixes are stripped as whole tokens only; in particular
`normalize("Incorporate Systems Inc")` keeps the word `"Incorporate"` and
yields `"incorporate systems"`. -/
theorem normalize_strips_whole_tokens_only :
    normalizeCompanyName (str "Incorporate Systems Inc") = str "incorporate systems" := by
  decide

/-! ## Deduplicator behaviour -/

/-- Claim C9: starting with no marker for the key and a positive first
timestamp (`Date.now()` is always positive), a check at `t₁` processes and
records the marker; a second check at `t₂` within 30 seconds of `t₁` skips
and leaves the whole map — in particular the marker — unchanged; a third
check at `t₃ ≥ t₁ + 30s` processes again and overwrites the marker. -/
theorem dedup_window_behavior (m : List Char → Option ℤ) (key : List Char)
    (t₁ t₂ t₃ : ℤ) (h0 : m key = none) (hpos : 0 < t₁) (hlt : t₂ - t₁ < 30000)
    (h3 : t₁ + 30000 ≤ t₃) :
    (shouldProcess m key t₁).1 = true ∧
    (shouldProcess m key t₁).2 key = some t₁ ∧
    (shouldProcess (shouldProcess m key t₁).2 key t₂).1 = false ∧
    (shouldProcess (shouldProcess m key t₁).2 key t₂).2 = (shouldProcess m key t₁).2 ∧
    (shouldProcess (shouldProcess (shouldProcess m key t₁).2 key t₂).2 key t₃).1 = true ∧
    (shouldProcess (shouldProcess (shouldProcess m key t₁).2 key t₂).2 key t₃).2 key
      = some t₃ := by
  have e1 : shouldProcess m key t₁ =
      (true, fun k => if k = key then some t₁ else m k) := by
    unfold shouldProcess
    rw [h0]
  have hm1 : (fun k => if k = key then some t₁ else m k) key = some t₁ := if_pos rfl
  have e2 : shouldProcess (fun k => if k = key then some t₁ else m k) key t₂ =
      (false, fun k => if k = key then some t₁ else m k) := by
    unfold shouldProcess
    rw [hm1]
    exact if_pos ⟨by omega, show t₂ - t₁ < (30 * 1000 : ℤ) by omega⟩
  have e3 : shouldProcess (fun k => if k = key then some t₁ else m k) key t₃ =
      (true, fun k => if k = key then some t₃
                      else if k = key then some t₁ else m k) := by
    unfold shouldProcess
    rw [hm1]
    exact if_neg fun hc =>
      absurd hc.2 (show ¬ t₃ - t₁ < (30 * 1000 : ℤ) by omega)
  simp [e1, e2, e3]

/-- Witness for claim C9 at a concrete map, key and times. -/
theorem dedup_window_behavior_witness :
    (shouldProcess (fun _ => none) (str "p1-c1") 1000).1 = true ∧
    (shouldProcess (fun _ => none) (str "p1-c1") 1000).2 (str "p1-c1") = some 1000 ∧
    (shouldProcess (shouldProcess (fun _ => none) (str "p1-c1") 1000).2
      (str "p1-c1") 2000).1 = false ∧
    (shouldProcess (shouldProcess (fun _ => none) (str "p1-c1") 1000).2
      (str "p1-c1") 2000).2 = (shouldProcess (fun _ => none) (str "p1-c1") 1000).2 ∧
    (shouldProcess (shouldProcess (shouldProcess (fun _ => none) (str "p1-c1") 1000).2
      (str "p1-c1") 2000).2 (str "p1-c1") 31000).1 = true ∧
    (shouldProcess (shouldProcess (shouldProcess (fun _ => none) (str "p1-c1") 1000).2
      (str "p1-c1") 2000).2 (str "p1-c1") 31000).2 (str "p1-c1") = some 31000 :=
  dedup_window_behavior (fun _ => none) (str "p1-c1") 1000 2000 31000 rfl
    (by norm_num) (by norm_num) (by norm_num)

/-! ## Empty-name short-circuit -/

/-- Claim C10, counterexample: the subject name `"Inc."` normalizes to the
empty string, yet (the name itself being truthy) the pipeline does *not*
short-circuit: with an all-failing backend the search chain still issues
backend queries (the trace is non-empty).  The code only short-circuits on an
empty raw name, not on an empty normalized name. -/
theorem empty_normalized_name_still_queries :
    normalizeCompanyName (str "Inc.") = [] ∧ str "Inc." ≠ [] ∧
    (processCompanyApi (fun _ => .httpError) (str "Inc.") [] []).2 ≠ [] := by
  refine ⟨by decide, by decide, by decide⟩

/-- Claim C10 (amended): a resolution request whose subject name is the empty
string short-circuits (skipped before matching) with no backend query issued. -/
theorem empty_name_short_circuits (backend : ℕ → FetchResult)
    (state domain : List Char) :
    processCompanyApi backend [] state domain = (.skippedNoName, []) := rfl

/-! ## The strategy chain -/

lemma samFetch_trace_all (backend : ℕ → FetchResult) (k : ℕ) (strat : Strategy)
    (q : SamQuery) : ∀ p ∈ (samFetch backend k strat q).trace, p = (strat, q) := by
  unfold samFetch
  cases backend k with
  | ok ed => simp
  | rateLimited =>
    cases backend (k + 1) with
    | ok ed => simp
    | rateLimited => simp
    | httpError => simp
  | httpError => simp

/-- What one fallback step contributes to the trace, and when it is a no-op. -/
lemma stepStrategy_decomp (backend : ℕ → FetchResult) (st : ChainState)
    (guard : Bool) (strat : Strategy) (q : SamQuery) :
    ∃ t, (stepStrategy backend st guard strat q).trace = st.trace ++ t ∧
      (∀ p ∈ t, p = (strat, q)) ∧
      (guard = false → t = [] ∧ stepStrategy backend st guard strat q = st) ∧
      (noResults st.entityData = false →
        t = [] ∧ stepStrategy backend st guard strat q = st) := by
  unfold stepStrategy
  by_cases h : (noResults st.entityData && guard) = true
  · rw [if_pos h]
    refine ⟨(samFetch backend st.next strat q).trace, rfl,
      samFetch_trace_all _ _ _ _, ?_, ?_⟩
    · intro hg
      rw [hg] at h
      simp at h
    · intro hn
      rw [hn] at h
      simp at h
  · rw [if_neg h]
    exact ⟨[], (List.append_nil _).symm, by simp, fun _ => ⟨rfl, rfl⟩,
      fun _ => ⟨rfl, rfl⟩⟩

lemma pairwise_tag_const {l : List (Strategy × SamQuery)} {v : Strategy × SamQuery}
    (h : ∀ p ∈ l, p = v) : l.Pairwise (fun p q => p.1.idx ≤ q.1.idx) := by
  induction l with
  | nil => exact List.Pairwise.nil
  | cons a t ih =>
    refine List.Pairwise.cons (fun q hq => ?_) (ih fun p hp => h p (List.mem_cons_of_mem _ hp))
    rw [h a (List.mem_cons_self a t), h q (List.mem_cons_of_mem _ hq)]

lemma pairwise_tag_append {l₁ l₂ : List (Strategy × SamQuery)}
    (h₁ : l₁.Pairwise (fun p q => p.1.idx ≤ q.1.idx))
    (h₂ : l₂.Pairwise (fun p q => p.1.idx ≤ q.1.idx))
    (hcross : ∀ p ∈ l₁, ∀ q ∈ l₂, p.1.idx ≤ q.1.idx) :
    (l₁ ++ l₂).Pairwise (fun p q => p.1.idx ≤ q.1.idx) :=
  List.pairwise_append.mpr ⟨h₁, h₂, hcross⟩

/-- Claim C7: the four retrieval strategies run in chain order and the chain
stops at the first strategy returning at least one result.  (a) If the
strategy-1 fetch yields results, the whole search returns them and every
fetch in the trace belongs to strategy 1 — strategies 2–4 issue no queries.
(b) Without a state hint no `'name only'` fetch is ever issued.  (c) Without
a domain hint no `'domain'` fetch is ever issued.  (d) The issued fetches
are ordered by strategy position. -/
theorem searchSamApi_strategy_chain (backend : ℕ → FetchResult)
    (name state domain : List Char) :
    (noResults (samFetch backend 0 .nameState
        (.byLegalName (normalizeCompanyName name)
          (if state.isEmpty then none else some state))).entityData = false →
      searchSamApi backend name state domain =
        ((samFetch backend 0 .nameState
            (.byLegalName (normalizeCompanyName name)
              (if state.isEmpty then none else some state))).entityData.getD [],
         (samFetch backend 0 .nameState
            (.byLegalName (normalizeCompanyName name)
              (if state.isEmpty then none else some state))).trace) ∧
      ∀ p ∈ (searchSamApi backend name state domain).2, p.1 = Strategy.nameState) ∧
    (state = [] →
      ∀ p ∈ (searchSamApi backend name state domain).2, p.1 ≠ Strategy.nameOnly) ∧
    (domain = [] →
      ∀ p ∈ (searchSamApi backend name state domain).2, p.1 ≠ Strategy.byDomain) ∧
    (searchSamApi backend name state domain).2.Pairwise
      (fun p q => p.1.idx ≤ q.1.idx) := by
  set n := normalizeCompanyName name with hn
  set q₁ : SamQuery := .byLegalName n (if state.isEmpty then none else some state)
    with hq₁
  set st₁ := samFetch backend 0 .nameState q₁ with hst₁
  set st₂ := stepStrategy backend st₁ (!state.isEmpty) .nameOnly (.byLegalName n none)
    with hst₂
  set st₃ := stepStrategy backend st₂ (!domain.isEmpty) .byDomain (.byEntityURL domain)
    with hst₃
  set st₄ := stepStrategy backend st₃ true .samSearch (.byKeyword n) with hst₄
  have hsearch : searchSamApi backend name state domain =
      (st₄.entityData.getD [], st₄.trace) := rfl
  have h₁all : ∀ p ∈ st₁.trace, p = (Strategy.nameState, q₁) := by
    rw [hst₁]
    exact samFetch_trace_all backend 0 .nameState q₁
  obtain ⟨t₂, h₂tr, h₂all, h₂g, h₂res⟩ :=
    stepStrategy_decomp backend st₁ (!state.isEmpty) .nameOnly (.byLegalName n none)
  obtain ⟨t₃, h₃tr, h₃all, h₃g, h₃res⟩ :=
    stepStrategy_decomp backend st₂ (!domain.isEmpty) .byDomain (.byEntityURL domain)
  obtain ⟨t₄, h₄tr, h₄all, h₄g, h₄res⟩ :=
    stepStrategy_decomp backend st₃ true .samSearch (.byKeyword n)
  rw [← hst₂] at h₂tr h₂res
  rw [← hst₃] at h₃tr h₃res
  rw [← hst₄] at h₄tr h₄res
  have htr : st₄.trace = st₁.trace ++ t₂ ++ t₃ ++ t₄ := by
    rw [h₄tr, h₃tr, h₂tr]
  have hmem : ∀ p ∈ st₄.trace,
      p ∈ st₁.trace ∨ p ∈ t₂ ∨ p ∈ t₃ ∨ p ∈ t₄ := by
    intro p hp
    rw [htr] at hp
    rcases List.mem_append.mp hp with hp' | hp₄
    · rcases List.mem_append.mp hp' with hp'' | hp₃
      · rcases List.mem_append.mp hp'' with hp₁ | hp₂
        · exact Or.inl hp₁
        · exact Or.inr (Or.inl hp₂)
      · exact Or.inr (Or.inr (Or.inl hp₃))
    · exact Or.inr (Or.inr (Or.inr hp₄))
  refine ⟨?_, ?_, ?_, ?_⟩
  · -- (a) strategy-1 success short-circuits
    intro h1
    obtain ⟨ht₂, hs₂⟩ := h₂res h1
    have h2 : noResults st₂.entityData = false := by rw [hs₂]; exact h1
    obtain ⟨ht₃, hs₃⟩ := h₃res h2
    have h3 : noResults st₃.entityData = false := by rw [hs₃]; exact h2
    obtain ⟨ht₄, hs₄⟩ := h₄res h3
    have hfin : st₄ = st₁ := by rw [hs₄, hs₃, hs₂]
    constructor
    · rw [hsearch, hfin]
    · intro p hp
      rw [hsearch] at hp
      rw [hfin] at hp
      rw [h₁all p hp]
  · -- (b) no 'name only' fetch without a state hint
    intro hstate p hp
    have ht₂ : t₂ = [] := (h₂g (by rw [hstate]; rfl)).1
    rw [hsearch] at hp
    rcases hmem p hp with h | h | h | h
    · rw [h₁all p h]
      exact (by decide : ¬Strategy.nameState = Strategy.nameOnly)
    · rw [ht₂] at h
      cases h
    · rw [h₃all p h]
      exact (by decide : ¬Strategy.byDomain = Strategy.nameOnly)
    · rw [h₄all p h]
      exact (by decide : ¬Strategy.samSearch = Strategy.nameOnly)
  · -- (c) no 'domain' fetch without a domain hint
    intro hdomain p hp
    have ht₃ : t₃ = [] := (h₃g (by rw [hdomain]; rfl)).1
    rw [hsearch] at hp
    rcases hmem p hp with h | h | h | h
    · rw [h₁all p h]
      exact (by decide : ¬Strategy.nameState = Strategy.byDomain)
    · rw [h₂all p h]
      exact (by decide : ¬Strategy.nameOnly = Strategy.byDomain)
    · rw [ht₃] at h
      cases h
    · rw [h₄all p h]
      exact (by decide : ¬Strategy.samSearch = Strategy.byDomain)
  · -- (d) strategies fire in chain order
    rw [hsearch]
    show (st₄.trace).Pairwise (fun p q => p.1.idx ≤ q.1.idx)
    rw [htr]
    refine pairwise_tag_append (pairwise_tag_append (pairwise_tag_append
      (pairwise_tag_const h₁all) (pairwise_tag_const h₂all) ?_)
      (pairwise_tag_const h₃all) ?_) (pairwise_tag_const h₄all) ?_
    · intro p hp q hq
      rw [h₁all p hp, h₂all q hq]
      exact (by decide : Strategy.nameState.idx ≤ Strategy.nameOnly.idx)
    · intro p hp q hq
      rcases List.mem_append.mp hp with h | h
      · rw [h₁all p h, h₃all q hq]
        exact (by decide : Strategy.nameState.idx ≤ Strategy.byDomain.idx)
      · rw [h₂all p h, h₃all q hq]
        exact (by decide : Strategy.nameOnly.idx ≤ Strategy.byDomain.idx)
    · intro p hp q hq
      rcases List.mem_append.mp hp with h' | h
      · rcases List.mem_append.mp h' with h | h
        · rw [h₁all p h, h₄all q hq]
          exact (by decide : Strategy.nameState.idx ≤ Strategy.samSearch.idx)
        · rw [h₂all p h, h₄all q hq]
          exact (by decide : Strategy.nameOnly.idx ≤ Strategy.samSearch.idx)
      · rw [h₃all p h, h₄all q hq]
        exact (by decide : Strategy.byDomain.idx ≤ Strategy.samSearch.idx)

/-- Witness for claim C7: a backend whose first fetch already returns one
entity; only the strategy-1 fetch is issued. -/
theorem searchSamApi_strategy_chain_witness :
    (searchSamApi (fun _ => .ok (some [⟨str "x", [], []⟩])) (str "acme") [] [] =
        ((samFetch (fun _ => .ok (some [⟨str "x", [], []⟩])) 0 .nameState
            (.byLegalName (normalizeCompanyName (str "acme"))
              (if ([] : List Char).isEmpty then none else some []))).entityData.getD [],
         (samFetch (fun _ => .ok (some [⟨str "x", [], []⟩])) 0 .nameState
            (.byLegalName (normalizeCompanyName (str "acme"))
              (if ([] : List Char).isEmpty then none else some []))).trace) ∧
      ∀ p ∈ (searchSamApi (fun _ => .ok (some [⟨str "x", [], []⟩]))
          (str "acme") [] []).2, p.1 = Strategy.nameState) ∧
    (∀ p ∈ (searchSamApi (fun _ => .ok (some [⟨str "x", [], []⟩]))
        (str "acme") [] []).2, p.1 ≠ Strategy.nameOnly) ∧
    (∀ p ∈ (searchSamApi (fun _ => .ok (some [⟨str "x", [], []⟩]))
        (str "acme") [] []).2, p.1 ≠ Strategy.byDomain) ∧
    (searchSamApi (fun _ => .ok (some [⟨str "x", [], []⟩]))
        (str "acme") [] []).2.Pairwise (fun p q => p.1.idx ≤ q.1.idx) := by
  obtain ⟨ha, hb, hc, hd⟩ := searchSamApi_strategy_chain
    (fun _ => .ok (some [⟨str "x", [], []⟩])) (str "acme") [] []
  exact ⟨ha rfl, hb rfl, hc rfl, hd⟩

/-- A no-result step under an all-failing backend keeps the empty data. -/
lemma stepStrategy_httpError_inv {backend : ℕ → FetchResult} {st : ChainState}
    (guard : Bool) (strat : Strategy) (q : SamQuery)
    (hall : ∀ j, backend j = .httpError) (hd : st.entityData = some []) :
    (stepStrategy backend st guard strat q).entityData = some [] := by
  unfold stepStrategy
  split
  · show (samFetch backend st.next strat q).entityData = some []
    unfold samFetch
    rw [hall st.next]
  · exact hd

/-- Claim C8: per-fetch error handling of `samFetch` and totality of the
chain.  A 429 causes exactly one retry of the same strategy (two fetches in
the trace); if the retry also fails (429 or other error) the strategy yields
`{ entityData: [] }`; any other non-OK response yields `{ entityData: [] }`
with no retry; and with every fetch failing, the whole search still returns
an (empty) candidate list, having proceeded through to the last strategy —
ordinary HTTP failures never raise. -/
theorem samFetch_rate_limit_and_errors (backend : ℕ → FetchResult) (k : ℕ)
    (strat : Strategy) (q : SamQuery) :
    (backend k = .rateLimited →
      (samFetch backend k strat q).trace = [(strat, q), (strat, q)] ∧
      ((backend (k + 1) = .rateLimited ∨ backend (k + 1) = .httpError) →
        (samFetch backend k strat q).entityData = some [])) ∧
    (backend k = .httpError →
      (samFetch backend k strat q).trace = [(strat, q)] ∧
      (samFetch backend k strat q).entityData = some []) ∧
    (∀ name state domain, (∀ j, backend j = .httpError) →
      (searchSamApi backend name state domain).1 = [] ∧
      Strategy.samSearch ∈ (searchSamApi backend name state domain).2.map Prod.fst) := by
  refine ⟨?_, ?_, ?_⟩
  · intro hk
    unfold samFetch
    rw [hk]
    cases h2 : backend (k + 1) with
    | ok ed =>
      refine ⟨rfl, fun hc => ?_⟩
      rcases hc with hc | hc <;> cases hc
    | rateLimited => exact ⟨rfl, fun _ => rfl⟩
    | httpError => exact ⟨rfl, fun _ => rfl⟩
  · intro hk
    unfold samFetch
    rw [hk]
    exact ⟨rfl, rfl⟩
  · intro name state domain hall
    set n := normalizeCompanyName name with hn
    set q₁ : SamQuery := .byLegalName n (if state.isEmpty then none else some state)
      with hq₁
    set st₁ := samFetch backend 0 .nameState q₁ with hst₁
    set st₂ := stepStrategy backend st₁ (!state.isEmpty) .nameOnly (.byLegalName n none)
      with hst₂
    set st₃ := stepStrategy backend st₂ (!domain.isEmpty) .byDomain (.byEntityURL domain)
      with hst₃
    set st₄ := stepStrategy backend st₃ true .samSearch (.byKeyword n) with hst₄
    have hsearch : searchSamApi backend name state domain =
        (st₄.entityData.getD [], st₄.trace) := rfl
    have hd₁ : st₁.entityData = some [] := by
      rw [hst₁]
      unfold samFetch
      rw [hall 0]
    have hd₂ : st₂.entityData = some [] :=
      stepStrategy_httpError_inv _ _ _ hall hd₁
    have hd₃ : st₃.entityData = some [] :=
      stepStrategy_httpError_inv _ _ _ hall hd₂
    have h4 : st₄ = ⟨some [], st₃.next + 1,
        st₃.trace ++ [(Strategy.samSearch, SamQuery.byKeyword n)]⟩ := by
      rw [hst₄]
      unfold stepStrategy
      rw [if_pos (by rw [hd₃]; rfl)]
      have : samFetch backend st₃.next .samSearch (.byKeyword n) =
          ⟨some [], st₃.next + 1, [(Strategy.samSearch, SamQuery.byKeyword n)]⟩ := by
        unfold samFetch
        rw [hall st₃.next]
      rw [this]
    constructor
    · rw [hsearch, h4]
      rfl
    · rw [hsearch, h4]
      simp

/-- Witness for claim C8: concrete all-429 and all-error backends. -/
theorem samFetch_rate_limit_and_errors_witness :
    ((samFetch (fun _ => .rateLimited) 0 .nameState (.byKeyword (str "acme"))).trace =
        [(.nameState, .byKeyword (str "acme")), (.nameState, .byKeyword (str "acme"))] ∧
      (samFetch (fun _ => .rateLimited) 0 .nameState
        (.byKeyword (str "acme"))).entityData = some []) ∧
    ((samFetch (fun _ => .httpError) 0 .nameState (.byKeyword (str "acme"))).trace =
        [(.nameState, .byKeyword (str "acme"))] ∧
      (samFetch (fun _ => .httpError) 0 .nameState
        (.byKeyword (str "acme"))).entityData = some []) ∧
    ((searchSamApi (fun _ => .httpError) (str "acme") [] []).1 = [] ∧
      Strategy.samSearch ∈
        (searchSamApi (fun _ => .httpError) (str "acme") [] []).2.map Prod.fst) := by
  refine ⟨?_, ?_, ?_⟩
  · obtain ⟨h1, h2⟩ := (samFetch_rate_limit_and_errors (fun _ => .rateLimited) 0
      .nameState (.byKeyword (str "acme"))).1 rfl
    exact ⟨h1, h2 (Or.inl rfl)⟩
  · exact (samFetch_rate_limit_and_errors (fun _ => .httpError) 0
      .nameState (.byKeyword (str "acme"))).2.1 rfl
  · exact (samFetch_rate_limit_and_errors (fun _ => .httpError) 0
      .nameState (.byKeyword (str "acme"))).2.2 (str "acme") [] [] (fun _ => rfl)

/-! ## Classification -/

lemma diceCoefficient_of_eq {a b : List Char} (h : foldAlnum a = foldAlnum b) :
    diceCoefficient a b = 1 := by
  unfold diceCoefficient
  rw [if_pos h]

lemma diceCoefficient_of_short {a b : List Char} (h1 : foldAlnum a ≠ foldAlnum b)
    (h2 : (foldAlnum a).length < 2 ∨ (foldAlnum b).length < 2) :
    diceCoefficient a b = 0 := by
  unfold diceCoefficient
  rw [if_neg h1, if_pos h2]

/-- Claim C1: the four classification cases of `processCompanyCreation`.
(1) No retrieved candidates → `no_match` with an empty sample.  (2) Every
candidate scoring below the 0.5 floor → `no_match` retaining at most the
first 5 raw candidates.  (3) Some candidate at or above 0.5 but all below
0.55 → `pending` with at most 5 scored candidates sorted by score
descending, drawn from the retrieved list with their combined scores.
(4) Some candidate at or above the 0.55 auto-link threshold → `matched`
with a top-scoring candidate and its score. -/
theorem classify_cases (q : CompanyQuery) (cs : List SamEntity) :
    (cs = [] → classifyCandidates q cs = .noMatch []) ∧
    (cs ≠ [] → (∀ e ∈ cs, matchScore q e < 1/2) →
      classifyCandidates q cs = .noMatch (cs.take 5) ∧ (cs.take 5).length ≤ 5) ∧
    ((∃ e ∈ cs, 1/2 ≤ matchScore q e) → (∀ e ∈ cs, matchScore q e < 11/20) →
      ∃ l, classifyCandidates q cs = .pending l ∧ l.length ≤ 5 ∧
        l.Pairwise (fun a b => b.2 ≤ a.2) ∧
        ∀ p ∈ l, p.1 ∈ cs ∧ p.2 = matchScore q p.1 ∧ (1 : ℚ)/2 ≤ p.2) ∧
    ((∃ e ∈ cs, 11/20 ≤ matchScore q e) →
      ∃ e s, classifyCandidates q cs = .matched e s ∧ e ∈ cs ∧
        s = matchScore q e ∧ ∀ e' ∈ cs, matchScore q e' ≤ s) := by
  by_cases hemp : cs.isEmpty = true
  · have hnil : cs = [] := List.isEmpty_iff.mp hemp
    subst hnil
    refine ⟨fun _ => by simp [classifyCandidates], fun hne _ => absurd rfl hne, ?_, ?_⟩
    · rintro ⟨e, he, -⟩
      cases he
    · rintro ⟨e, he, -⟩
      cases he
  · have hne : cs ≠ [] := fun h => hemp (List.isEmpty_iff.mpr h)
    have hclassify_nil : sortedMatches q cs = [] →
        classifyCandidates q cs = .noMatch (cs.take 5) := by
      intro h
      unfold classifyCandidates
      rw [if_neg hemp, h]
    have hclassify_cons : ∀ best restS, sortedMatches q cs = best :: restS →
        classifyCandidates q cs =
          if (11 : ℚ)/20 ≤ best.2 then .matched best.1 best.2
          else .pending ((best :: restS).take 5) := by
      intro best restS h
      unfold classifyCandidates
      rw [if_neg hemp, h]
    have hperm : (sortedMatches q cs).Perm
        ((scoredList q cs).filter fun m => (1 : ℚ)/2 ≤ m.2) :=
      List.mergeSort_perm _ scoreDesc
    have hsort : (sortedMatches q cs).Pairwise (fun a b => b.2 ≤ a.2) := by
      have htrans : ∀ a b c : SamEntity × ℚ,
          scoreDesc a b = true → scoreDesc b c = true → scoreDesc a c = true := by
        intro a b c hab hbc
        simp only [scoreDesc, decide_eq_true_eq] at *
        exact le_trans hbc hab
      have htotal : ∀ a b : SamEntity × ℚ, (scoreDesc a b || scoreDesc b a) = true := by
        intro a b
        simp only [scoreDesc, Bool.or_eq_true, decide_eq_true_eq]
        exact le_total b.2 a.2
      exact (List.sorted_mergeSort htrans htotal _).imp
        (fun h => by simpa [scoreDesc] using h)
    have hmem_scored : ∀ p : SamEntity × ℚ,
        p ∈ scoredList q cs ↔ ∃ e ∈ cs, (e, matchScore q e) = p := by
      intro p
      unfold scoredList
      simp [List.mem_map]
    have hmem_sorted : ∀ p : SamEntity × ℚ,
        p ∈ sortedMatches q cs ↔ p ∈ scoredList q cs ∧ (1 : ℚ)/2 ≤ p.2 := by
      intro p
      rw [hperm.mem_iff, List.mem_filter]
      simp
    have hhead : ∀ best restS, sortedMatches q cs = best :: restS →
        ∀ p ∈ sortedMatches q cs, p.2 ≤ best.2 := by
      intro best restS hbr p hp
      rw [hbr] at hp
      rcases List.mem_cons.mp hp with rfl | hp'
      · exact le_refl _
      · exact (List.pairwise_cons.mp (hbr ▸ hsort)).1 p hp'
    have hprops : ∀ p ∈ sortedMatches q cs,
        p.1 ∈ cs ∧ p.2 = matchScore q p.1 ∧ (1 : ℚ)/2 ≤ p.2 := by
      intro p hp
      obtain ⟨hps, hpge⟩ := (hmem_sorted p).mp hp
      obtain ⟨e, hecs, heq⟩ := (hmem_scored p).mp hps
      refine ⟨?_, ?_, hpge⟩
      · rw [← heq]
        exact hecs
      · rw [← heq]
    refine ⟨fun h => absurd h hne, ?_, ?_, ?_⟩
    · -- (2) everything below the floor
      intro _ hall
      have hfil_nil : ((scoredList q cs).filter fun m => (1 : ℚ)/2 ≤ m.2) = [] := by
        refine List.filter_eq_nil_iff.mpr fun p hp => ?_
        obtain ⟨e, hecs, heq⟩ := (hmem_scored p).mp hp
        simp only [decide_eq_true_eq, not_le]
        rw [← heq]
        exact hall e hecs
      have hsort_nil : sortedMatches q cs = [] := by
        unfold sortedMatches
        rw [hfil_nil, List.mergeSort_nil]
      rw [hclassify_nil hsort_nil]
      exact ⟨rfl, List.length_take_le _ _⟩
    · -- (3) pending band
      rintro ⟨e, hecs, hege⟩ hall
      have hpair : (e, matchScore q e) ∈ sortedMatches q cs :=
        (hmem_sorted _).mpr ⟨(hmem_scored _).mpr ⟨e, hecs, rfl⟩, hege⟩
      have hsne : sortedMatches q cs ≠ [] := by
        intro h0
        rw [h0] at hpair
        cases hpair
      obtain ⟨best, restS, hbr⟩ := List.exists_cons_of_ne_nil hsne
      have hbest_mem : best ∈ sortedMatches q cs := by
        rw [hbr]
        exact List.mem_cons_self _ _
      obtain ⟨hbcs, hbeq, -⟩ := hprops best hbest_mem
      have hbest_lt : best.2 < 11/20 := by
        rw [hbeq]
        exact hall _ hbcs
      refine ⟨(sortedMatches q cs).take 5, ?_, List.length_take_le _ _,
        hsort.sublist (List.take_sublist _ _), ?_⟩
      · rw [hclassify_cons best restS hbr, if_neg (not_le.mpr hbest_lt), ← hbr]
      · intro p hp
        exact hprops p (List.take_subset _ _ hp)
    · -- (4) auto-link
      rintro ⟨e, hecs, hege⟩
      have hpair : (e, matchScore q e) ∈ sortedMatches q cs :=
        (hmem_sorted _).mpr ⟨(hmem_scored _).mpr ⟨e, hecs, rfl⟩,
          le_trans (by norm_num) hege⟩
      have hsne : sortedMatches q cs ≠ [] := by
        intro h0
        rw [h0] at hpair
        cases hpair
      obtain ⟨best, restS, hbr⟩ := List.exists_cons_of_ne_nil hsne
      have hbest_mem : best ∈ sortedMatches q cs := by
        rw [hbr]
        exact List.mem_cons_self _ _
      obtain ⟨hbcs, hbeq, -⟩ := hprops best hbest_mem
      have h_e_le : matchScore q e ≤ best.2 :=
        hhead best restS hbr _ hpair
      have hbest_ge : (11 : ℚ)/20 ≤ best.2 := le_trans hege h_e_le
      refine ⟨best.1, best.2, ?_, hbcs, hbeq, ?_⟩
      · rw [hclassify_cons best restS hbr, if_pos hbest_ge]
      · intro e' he'
        rcases le_or_lt ((1 : ℚ)/2) (matchScore q e') with hge' | hlt'
        · exact hhead best restS hbr _
            ((hmem_sorted _).mpr ⟨(hmem_scored _).mpr ⟨e', he', rfl⟩, hge'⟩)
        · have : (1 : ℚ)/2 ≤ 11/20 := by norm_num
          linarith

/-- Witness for claim C1: the four cases at concrete singleton inputs. -/
theorem classify_cases_witness :
    classifyCandidates ⟨str "ab", []⟩ [] = .noMatch [] ∧
    (classifyCandidates ⟨str "ab", []⟩ [⟨str "z", [], []⟩] =
        .noMatch ([(⟨str "z", [], []⟩ : SamEntity)].take 5) ∧
      ([(⟨str "z", [], []⟩ : SamEntity)].take 5).length ≤ 5) ∧
    (∃ l, classifyCandidates ⟨str "abc", []⟩ [⟨str "abd", [], []⟩] = .pending l ∧
      l.length ≤ 5 ∧ l.Pairwise (fun a b => b.2 ≤ a.2) ∧
      ∀ p ∈ l, p.1 ∈ [(⟨str "abd", [], []⟩ : SamEntity)] ∧
        p.2 = matchScore ⟨str "abc", []⟩ p.1 ∧ (1 : ℚ)/2 ≤ p.2) ∧
    (∃ e s, classifyCandidates ⟨str "ab", []⟩ [⟨str "ab", [], []⟩] = .matched e s ∧
      e ∈ [(⟨str "ab", [], []⟩ : SamEntity)] ∧ s = matchScore ⟨str "ab", []⟩ e ∧
      ∀ e' ∈ [(⟨str "ab", [], []⟩ : SamEntity)], matchScore ⟨str "ab", []⟩ e' ≤ s) := by
  have hLow : matchScore ⟨str "ab", []⟩ ⟨str "z", [], []⟩ = 0 := by
    unfold matchScore
    rw [if_pos rfl, if_neg (by simp),
      diceCoefficient_of_short (by decide) (by decide)]
    norm_num [min_def, max_def]
  have hHigh : matchScore ⟨str "ab", []⟩ ⟨str "ab", [], []⟩ = 1 := by
    unfold matchScore
    rw [if_pos rfl, if_neg (by simp), diceCoefficient_of_eq (by decide)]
    norm_num [min_def, max_def]
  have hMid : matchScore ⟨str "abc", []⟩ ⟨str "abd", [], []⟩ = 1/2 := by
    unfold matchScore
    rw [if_pos rfl, if_neg (by simp),
      diceCoefficient_of_ne (by decide) (by decide)]
    rw [show countMatches
        (bigramSet (foldAlnum (normalizeCompanyName (str "abc"))))
        (bigrams (foldAlnum (normalizeCompanyName (str "abd")))) = 1 by decide]
    rw [show (foldAlnum (normalizeCompanyName (str "abc"))).length = 3 by decide]
    rw [show (foldAlnum (normalizeCompanyName (str "abd"))).length = 3 by decide]
    norm_num [min_def, max_def]
  refine ⟨(classify_cases ⟨str "ab", []⟩ []).1 rfl,
    (classify_cases ⟨str "ab", []⟩ [⟨str "z", [], []⟩]).2.1 (by simp) ?_,
    (classify_cases ⟨str "abc", []⟩ [⟨str "abd", [], []⟩]).2.2.1 ?_ ?_,
    (classify_cases ⟨str "ab", []⟩ [⟨str "ab", [], []⟩]).2.2.2 ?_⟩
  · intro e he
    rw [List.mem_singleton.mp he, hLow]
    norm_num
  · exact ⟨_, List.mem_singleton.mpr rfl, by rw [hMid]⟩
  · intro e he
    rw [List.mem_singleton.mp he, hMid]
    norm_num
  · exact ⟨_, List.mem_singleton.mpr rfl, by rw [hHigh]; norm_num⟩

/-! ## Idempotence analysis of the normalizer

The normalizer is *not* idempotent in general: the punctuation-stripping
stage runs after the suffix-stripping stage and can join fragments into a
fresh suffix token (e.g. `"c-o"` → `"co"`, which a second pass deletes).
It is idempotent on inputs made of word characters and whitespace only,
which we prove by showing that on such inputs the result is always the
space-separated join of the lowercased non-suffix tokens. -/

lemma char_toNat_ofNat {n : ℕ} (h : n.isValidChar) : (Char.ofNat n).toNat = n := by
  rw [Char.ofNat, dif_pos h]
  simp [Char.ofNatAux, Char.toNat, UInt32.toNat, BitVec.toNat_ofNatLt]

lemma ws_not_word {c : Char} (h : isJsWs c = true) : isWordChar c = false := by
  rw [Bool.eq_false_iff]
  intro hw
  simp only [isJsWs, Bool.or_eq_true, Bool.and_eq_true, decide_eq_true_eq] at h
  simp only [isWordChar, Bool.or_eq_true, Bool.and_eq_true, decide_eq_true_eq] at hw
  omega

lemma word_not_ws {c : Char} (h : isWordChar c = true) : isJsWs c = false := by
  rw [Bool.eq_false_iff]
  intro hws
  rw [ws_not_word hws] at h
  cases h

lemma toLower_eq_of_not_upper {c : Char} (h : ¬(65 ≤ c.toNat ∧ c.toNat ≤ 90)) :
    Char.toLower c = c := by
  simp only [Char.toLower]
  rw [if_neg h]

lemma toLower_of_upper {c : Char} (h : 65 ≤ c.toNat ∧ c.toNat ≤ 90) :
    (Char.toLower c).toNat = c.toNat + 32 := by
  simp only [Char.toLower]
  rw [if_pos h]
  exact char_toNat_ofNat (Or.inl (by omega))

lemma word_toLower {c : Char} (h : isWordChar c = true) :
    isWordChar (Char.toLower c) = true := by
  simp only [isWordChar, Bool.or_eq_true, Bool.and_eq_true, decide_eq_true_eq] at h ⊢
  by_cases hu : 65 ≤ c.toNat ∧ c.toNat ≤ 90
  · rw [toLower_of_upper hu]
    omega
  · rw [toLower_eq_of_not_upper hu]
    exact h

lemma ws_toLower {c : Char} (h : isJsWs c = true) : Char.toLower c = c := by
  apply toLower_eq_of_not_upper
  simp only [isJsWs, Bool.or_eq_true, Bool.and_eq_true, decide_eq_true_eq] at h
  omega

lemma toLower_toLower (c : Char) :
    Char.toLower (Char.toLower c) = Char.toLower c := by
  by_cases hu : 65 ≤ c.toNat ∧ c.toNat ≤ 90
  · apply toLower_eq_of_not_upper
    rw [toLower_of_upper hu]
    omega
  · rw [toLower_eq_of_not_upper hu]
    exact toLower_eq_of_not_upper hu

/-- Join a list of tokens with single spaces (the canonical output shape of
the normalizer on punctuation-free inputs). -/
def joinWords : List (List Char) → List Char
  | [] => []
  | [w] => w
  | w :: ws => w ++ ' ' :: joinWords ws

/-- The maximal word-character runs of a string, in order. -/
def wordsOf : List Char → List (List Char)
  | [] => []
  | c :: rest =>
    if isWordChar c then
      (c :: rest.takeWhile isWordChar) :: wordsOf (rest.dropWhile isWordChar)
    else wordsOf rest
termination_by x => x.length
decreasing_by
  all_goals rename_i c rest _
  all_goals simp only [List.length_cons]
  · have : (rest.dropWhile isWordChar).length ≤ rest.length :=
      (List.dropWhile_sublist isWordChar).length_le
    omega
  · omega

/-- The word chunks of a chunk list, in order. -/
def wordsOfChunks (cs : List Chunk) : List (List Char) :=
  cs.filterMap fun ch => match ch with | .word w => some w | .punct _ => none

def isWordChunk : Chunk → Bool
  | .word _ => true
  | .punct _ => false

/-- The chunks kept by suffix deletion when no `'.'` chunk is involved. -/
def stripPred : Chunk → Bool
  | .word w => !decide (w ∈ suffixTokens)
  | .punct _ => true

/-- No two word chunks are adjacent. -/
def NoAdjWords (cs : List Chunk) : Prop :=
  cs.Chain' fun a b => isWordChunk a = false ∨ isWordChunk b = false

/-- Well-formed chunks over a character predicate: word chunks are nonempty
runs of word characters, punct chunks are single non-word characters, and
all characters satisfy `P`. -/
def ChunkOk (P : Char → Prop) : Chunk → Prop
  | .word w => w ≠ [] ∧ ∀ c ∈ w, isWordChar c = true ∧ P c
  | .punct c => isWordChar c = false ∧ P c

lemma chunkAux_acc_nil (a : Char) (t : List Char) :
    chunkAux (a :: t) [] = [.word (a :: t).reverse] := rfl

lemma chunkAux_cons_word {c : Char} (acc rest : List Char)
    (h : isWordChar c = true) :
    chunkAux acc (c :: rest) = chunkAux (c :: acc) rest := by
  cases acc <;> simp [chunkAux, h]

lemma chunkAux_cons_punct_nil {c : Char} (rest : List Char)
    (h : isWordChar c = false) :
    chunkAux [] (c :: rest) = .punct c :: chunkAux [] rest := by
  simp [chunkAux, h]

lemma chunkAux_cons_punct_acc {c : Char} (a : Char) (t rest : List Char)
    (h : isWordChar c = false) :
    chunkAux (a :: t) (c :: rest) =
      .word (a :: t).reverse :: .punct c :: chunkAux [] rest := by
  simp [chunkAux, h]

lemma chunkAux_append_word : ∀ (w acc rest : List Char),
    (∀ c ∈ w, isWordChar c = true) →
    chunkAux acc (w ++ rest) = chunkAux (w.reverse ++ acc) rest := by
  intro w
  induction w with
  | nil =>
    intro acc rest _
    simp
  | cons a w' ih =>
    intro acc rest hw
    rw [List.cons_append, chunkAux_cons_word _ _ (hw a (List.mem_cons_self a w'))]
    rw [ih (a :: acc) rest fun c hc => hw c (List.mem_cons_of_mem _ hc)]
    congr 1
    simp [List.append_assoc]

lemma chunk_punct_cons {c : Char} {l : List Char} (h : isWordChar c = false) :
    chunk (c :: l) = .punct c :: chunk l :=
  chunkAux_cons_punct_nil l h

lemma chunk_word_nil {w : List Char} (hw : ∀ c ∈ w, isWordChar c = true)
    (hne : w ≠ []) : chunk w = [.word w] := by
  unfold chunk
  have h1 : chunkAux [] (w ++ []) = chunkAux (w.reverse ++ []) [] :=
    chunkAux_append_word w [] [] hw
  rw [List.append_nil, List.append_nil] at h1
  obtain ⟨a, t, ht⟩ :=
    List.exists_cons_of_ne_nil (show w.reverse ≠ [] by simpa using hne)
  rw [h1, ht, chunkAux_acc_nil, ← ht, List.reverse_reverse]

lemma chunk_word_break {w : List Char} {c : Char} {rest : List Char}
    (hw : ∀ c' ∈ w, isWordChar c' = true) (hne : w ≠ [])
    (hc : isWordChar c = false) :
    chunk (w ++ c :: rest) = .word w :: .punct c :: chunk rest := by
  unfold chunk
  rw [chunkAux_append_word w [] (c :: rest) hw, List.append_nil]
  obtain ⟨a, t, ht⟩ :=
    List.exists_cons_of_ne_nil (show w.reverse ≠ [] by simpa using hne)
  rw [ht, chunkAux_cons_punct_acc _ _ _ hc, ← ht, List.reverse_reverse]

lemma chunkAux_ok (P : Char → Prop) : ∀ (l acc : List Char),
    (∀ c ∈ acc, isWordChar c = true ∧ P c) → (∀ c ∈ l, P c) →
    ∀ ch ∈ chunkAux acc l, ChunkOk P ch := by
  intro l
  induction l with
  | nil =>
    intro acc hacc _ ch hch
    cases acc with
    | nil => cases hch
    | cons a t =>
      rw [chunkAux_acc_nil] at hch
      rw [List.mem_singleton.mp hch]
      exact ⟨by simp, fun c hc => hacc c (List.mem_reverse.mp hc)⟩
  | cons c rest ih =>
    intro acc hacc hl ch hch
    by_cases hcw : isWordChar c = true
    · rw [chunkAux_cons_word _ _ hcw] at hch
      refine ih (c :: acc) ?_ (fun x hx => hl x (List.mem_cons_of_mem _ hx)) ch hch
      intro x hx
      rcases List.mem_cons.mp hx with rfl | hx'
      · exact ⟨hcw, hl x (List.mem_cons_self _ _)⟩
      · exact hacc x hx'
    · have hcf : isWordChar c = false := Bool.eq_false_iff.mpr hcw
      cases acc with
      | nil =>
        rw [chunkAux_cons_punct_nil _ hcf] at hch
        rcases List.mem_cons.mp hch with rfl | hch'
        · exact ⟨hcf, hl c (List.mem_cons_self _ _)⟩
        · exact ih [] (by simp) (fun x hx => hl x (List.mem_cons_of_mem _ hx)) ch hch'
      | cons a t =>
        rw [chunkAux_cons_punct_acc _ _ _ hcf] at hch
        rcases List.mem_cons.mp hch with rfl | hch'
        · exact ⟨by simp, fun x hx => hacc x (List.mem_reverse.mp hx)⟩
        · rcases List.mem_cons.mp hch' with rfl | hch''
          · exact ⟨hcf, hl c (List.mem_cons_self _ _)⟩
          · exact ih [] (by simp) (fun x hx => hl x (List.mem_cons_of_mem _ hx)) ch hch''

lemma chunk_ok {l : List Char} (P : Char → Prop) (hl : ∀ c ∈ l, P c) :
    ∀ ch ∈ chunk l, ChunkOk P ch :=
  chunkAux_ok P l [] (by simp) hl

lemma chunkAux_noAdj : ∀ (l acc : List Char), NoAdjWords (chunkAux acc l) := by
  intro l
  induction l with
  | nil =>
    intro acc
    cases acc with
    | nil => exact List.chain'_nil
    | cons a t =>
      rw [chunkAux_acc_nil]
      exact List.chain'_singleton _
  | cons c rest ih =>
    intro acc
    by_cases hcw : isWordChar c = true
    · rw [chunkAux_cons_word _ _ hcw]
      exact ih (c :: acc)
    · have hcf : isWordChar c = false := Bool.eq_false_iff.mpr hcw
      cases acc with
      | nil =>
        rw [chunkAux_cons_punct_nil _ hcf]
        exact List.chain'_cons'.mpr ⟨fun y _ => Or.inl rfl, ih []⟩
      | cons a t =>
        rw [chunkAux_cons_punct_acc _ _ _ hcf]
        refine List.chain'_cons'.mpr ⟨fun y hy => ?_,
          List.chain'_cons'.mpr ⟨fun y _ => Or.inl rfl, ih []⟩⟩
        have hyc : Chunk.punct c = y := by simpa using hy
        subst hyc
        exact Or.inr rfl

lemma chunk_noAdj (l : List Char) : NoAdjWords (chunk l) :=
  chunkAux_noAdj l []

/-- With no `'.'` punct chunk around, suffix deletion is exactly a filter. -/
lemma stripAux_eq_filter : ∀ (cs : List Chunk),
    (∀ c, Chunk.punct c ∈ cs → c ≠ '.') →
    ∀ flag, stripAux flag cs = cs.filter stripPred := by
  intro cs
  induction cs with
  | nil => intro _ _; rfl
  | cons ch rest ih =>
    intro hdot flag
    have hrest : ∀ c, Chunk.punct c ∈ rest → c ≠ '.' :=
      fun c hc => hdot c (List.mem_cons_of_mem _ hc)
    cases ch with
    | punct c =>
      have hc : c ≠ '.' := hdot c (List.mem_cons_self _ _)
      rw [show stripAux flag (.punct c :: rest) = .punct c :: stripAux false rest by
        simp [stripAux, hc]]
      rw [List.filter_cons, if_pos (by simp [stripPred]), ih hrest false]
    | word w =>
      by_cases hw : w ∈ suffixTokens
      · rw [show stripAux flag (.word w :: rest) = stripAux true rest by
          simp [stripAux, hw]]
        rw [List.filter_cons, if_neg (by simp [stripPred, hw]), ih hrest true]
      · rw [show stripAux flag (.word w :: rest) = .word w :: stripAux false rest by
          simp [stripAux, hw]]
        rw [List.filter_cons, if_pos (by simp [stripPred, hw]), ih hrest false]

/-- Filtering that keeps every punct chunk preserves word non-adjacency. -/
lemma noAdj_filter : ∀ {cs : List Chunk}, NoAdjWords cs →
    NoAdjWords (cs.filter stripPred) := by
  intro cs
  induction cs with
  | nil => intro _; exact List.chain'_nil
  | cons a rest ih =>
    intro h
    obtain ⟨hhead, htail⟩ := List.chain'_cons'.mp h
    by_cases ha : stripPred a = true
    · rw [List.filter_cons, if_pos ha]
      refine List.chain'_cons'.mpr ⟨?_, ih htail⟩
      intro b hb
      by_cases haw : isWordChunk a = true
      · cases rest with
        | nil => cases hb
        | cons r rest₂ =>
          by_cases hr : stripPred r = true
          · rw [List.filter_cons, if_pos hr] at hb
            have hbr : r = b := by simpa using hb
            subst hbr
            exact hhead r (by simp)
          · have hrw : isWordChunk r = true := by
              cases r with
              | word _ => rfl
              | punct _ => exact absurd rfl hr
            rcases hhead r (by simp) with h1 | h1
            · rw [haw] at h1
              cases h1
            · rw [hrw] at h1
              cases h1
      · exact Or.inl (Bool.eq_false_iff.mpr haw)
    · rw [List.filter_cons, if_neg ha]
      exact ih htail

lemma wordsOfChunks_cons_word (w : List Char) (rest : List Chunk) :
    wordsOfChunks (.word w :: rest) = w :: wordsOfChunks rest := rfl

lemma wordsOfChunks_cons_punct (c : Char) (rest : List Chunk) :
    wordsOfChunks (.punct c :: rest) = wordsOfChunks rest := rfl

lemma wordsOfChunks_filter : ∀ cs : List Chunk,
    wordsOfChunks (cs.filter stripPred) =
      (wordsOfChunks cs).filter fun w => !decide (w ∈ suffixTokens) := by
  intro cs
  induction cs with
  | nil => rfl
  | cons ch rest ih =>
    cases ch with
    | word w =>
      by_cases hw : w ∈ suffixTokens
      · rw [List.filter_cons, if_neg (by simp [stripPred, hw]), ih,
          wordsOfChunks_cons_word, List.filter_cons, if_neg (by simp [hw])]
      · rw [List.filter_cons, if_pos (by simp [stripPred, hw]),
          wordsOfChunks_cons_word, ih, wordsOfChunks_cons_word,
          List.filter_cons, if_pos (by simp [hw])]
    | punct c =>
      rw [List.filter_cons, if_pos (by simp [stripPred]),
        wordsOfChunks_cons_punct, ih, wordsOfChunks_cons_punct]

lemma mem_unChunks : ∀ {cs : List Chunk} {c : Char},
    c ∈ unChunks cs ↔ (∃ w, Chunk.word w ∈ cs ∧ c ∈ w) ∨ Chunk.punct c ∈ cs := by
  intro cs
  induction cs with
  | nil => intro c; simp [unChunks]
  | cons ch rest ih =>
    intro c
    cases ch with
    | word w =>
      simp only [unChunks, List.mem_append, ih, List.mem_cons]
      constructor
      · rintro (hc | ⟨w', hw', hc⟩ | hp)
        · exact Or.inl ⟨w, Or.inl rfl, hc⟩
        · exact Or.inl ⟨w', Or.inr hw', hc⟩
        · exact Or.inr (Or.inr hp)
      · rintro (⟨w', hw' | hw', hc⟩ | hp | hp)
        · cases hw'
          exact Or.inl hc
        · exact Or.inr (Or.inl ⟨w', hw', hc⟩)
        · cases hp
        · exact Or.inr (Or.inr hp)
    | punct c' =>
      simp only [unChunks, List.mem_cons, ih]
      constructor
      · rintro (rfl | ⟨w', hw', hc⟩ | hp)
        · exact Or.inr (Or.inl rfl)
        · exact Or.inl ⟨w', Or.inr hw', hc⟩
        · exact Or.inr (Or.inr hp)
      · rintro (⟨w', hw' | hw', hc⟩ | hp | hp)
        · cases hw'
        · exact Or.inr (Or.inl ⟨w', hw', hc⟩)
        · rw [Chunk.punct.injEq] at hp
          exact Or.inl hp
        · exact Or.inr (Or.inr hp)

lemma takeWhile_append_all {α : Type} {p : α → Bool} :
    ∀ {w u : List α}, (∀ c ∈ w, p c = true) →
      (w ++ u).takeWhile p = w ++ u.takeWhile p := by
  intro w
  induction w with
  | nil => intro u _; simp
  | cons a w' ih =>
    intro u hw
    rw [List.cons_append, List.takeWhile_cons_of_pos (hw a (List.mem_cons_self _ _)),
      ih fun c hc => hw c (List.mem_cons_of_mem _ hc), List.cons_append]

lemma dropWhile_append_all {α : Type} {p : α → Bool} :
    ∀ {w u : List α}, (∀ c ∈ w, p c = true) →
      (w ++ u).dropWhile p = u.dropWhile p := by
  intro w
  induction w with
  | nil => intro u _; simp
  | cons a w' ih =>
    intro u hw
    rw [List.cons_append, List.dropWhile_cons_of_pos (hw a (List.mem_cons_self _ _)),
      ih fun c hc => hw c (List.mem_cons_of_mem _ hc)]

lemma dropWhile_head_false {α : Type} {p : α → Bool} :
    ∀ {l : List α} {d : α} {u : List α}, l.dropWhile p = d :: u → p d = false := by
  intro l
  induction l with
  | nil => intro d u h; cases h
  | cons a l' ih =>
    intro d u h
    by_cases ha : p a = true
    · rw [List.dropWhile_cons_of_pos ha] at h
      exact ih h
    · rw [List.dropWhile_cons_of_neg ha] at h
      cases h
      exact Bool.eq_false_iff.mpr ha

lemma wordsOf_nil : wordsOf [] = [] := by
  simp [wordsOf]

lemma wordsOf_cons_word {c : Char} {rest : List Char} (h : isWordChar c = true) :
    wordsOf (c :: rest) =
      (c :: rest.takeWhile isWordChar) :: wordsOf (rest.dropWhile isWordChar) := by
  rw [wordsOf, if_pos h]

lemma wordsOf_cons_punct {c : Char} {rest : List Char} (h : isWordChar c = false) :
    wordsOf (c :: rest) = wordsOf rest := by
  rw [wordsOf, if_neg (by rw [h]; exact Bool.false_ne_true)]

/-- Dropping leading whitespace does not change the word runs. -/
lemma wordsOf_dropWhile_ws : ∀ z : List Char,
    wordsOf (z.dropWhile isJsWs) = wordsOf z := by
  intro z
  induction z with
  | nil => rfl
  | cons e z' ih =>
    by_cases he : isJsWs e = true
    · rw [List.dropWhile_cons_of_pos he, ih, wordsOf_cons_punct (ws_not_word he)]
    · rw [List.dropWhile_cons_of_neg he]

/-- Flattening a well-formed chunk list and re-extracting word runs gives
back exactly the word chunks. -/
lemma wordsOf_unChunks : ∀ cs : List Chunk,
    (∀ w, Chunk.word w ∈ cs → w ≠ [] ∧ ∀ c ∈ w, isWordChar c = true) →
    (∀ c, Chunk.punct c ∈ cs → isWordChar c = false) →
    NoAdjWords cs →
    wordsOf (unChunks cs) = wordsOfChunks cs := by
  intro cs
  induction cs with
  | nil =>
    intro _ _ _
    exact wordsOf_nil
  | cons ch rest ih =>
    intro hword hpunct hchain
    obtain ⟨hhead, htail⟩ := List.chain'_cons'.mp hchain
    have hwrest : ∀ w, Chunk.word w ∈ rest → w ≠ [] ∧ ∀ c ∈ w, isWordChar c = true :=
      fun w hw => hword w (List.mem_cons_of_mem _ hw)
    have hprest : ∀ c, Chunk.punct c ∈ rest → isWordChar c = false :=
      fun c hc => hpunct c (List.mem_cons_of_mem _ hc)
    cases ch with
    | punct c =>
      have hc := hpunct c (List.mem_cons_self _ _)
      show wordsOf (c :: unChunks rest) = _
      rw [wordsOf_cons_punct hc, ih hwrest hprest htail, wordsOfChunks_cons_punct]
    | word w =>
      obtain ⟨hne, hall⟩ := hword w (List.mem_cons_self _ _)
      obtain ⟨a, w', rfl⟩ := List.exists_cons_of_ne_nil hne
      have hallw' : ∀ c ∈ w', isWordChar c = true :=
        fun c hc => hall c (List.mem_cons_of_mem _ hc)
      show wordsOf (a :: (w' ++ unChunks rest)) = _
      rw [wordsOf_cons_word (hall a (List.mem_cons_self _ _))]
      rw [takeWhile_append_all hallw', dropWhile_append_all hallw']
      cases rest with
      | nil =>
        show ((a :: (w' ++ List.takeWhile isWordChar [])) ::
          wordsOf (List.dropWhile isWordChar [])) = _
        simp [wordsOf_nil, wordsOfChunks_cons_word, wordsOfChunks]
      | cons ch₂ rest₂ =>
        cases ch₂ with
        | word w₂ =>
          rcases hhead (Chunk.word w₂) (by simp) with h1 | h1 <;> cases h1
        | punct c₂ =>
          have hc₂ : isWordChar c₂ = false :=
            hpunct c₂ (List.mem_cons_of_mem _ (List.mem_cons_self _ _))
          show ((a :: (w' ++ List.takeWhile isWordChar (c₂ :: unChunks rest₂))) ::
            wordsOf (List.dropWhile isWordChar (c₂ :: unChunks rest₂))) = _
          rw [List.takeWhile_cons_of_neg (by rw [hc₂]; exact Bool.false_ne_true),
            List.dropWhile_cons_of_neg (by rw [hc₂]; exact Bool.false_ne_true)]
          rw [List.append_nil]
          have := ih hwrest hprest htail
          show ((a :: w') :: wordsOf (unChunks (Chunk.punct c₂ :: rest₂))) = _
          rw [this, wordsOfChunks_cons_word]

/-- The right-trim half of `trim`. -/
def trimRight (l : List Char) : List Char :=
  (l.reverse.dropWhile isJsWs).reverse

lemma trimWs_eq (l : List Char) : trimWs l = trimRight (l.dropWhile isJsWs) := rfl

lemma dropWhile_eq_self_of_all_false {α : Type} {p : α → Bool} :
    ∀ {l : List α}, (∀ c ∈ l, p c = false) → l.dropWhile p = l := by
  intro l h
  cases l with
  | nil => rfl
  | cons a t =>
    exact List.dropWhile_cons_of_neg
      (by rw [h a (List.mem_cons_self _ _)]; exact Bool.false_ne_true)

lemma trimRight_append (l₁ l₂ : List Char) :
    trimRight (l₁ ++ l₂) =
      if trimRight l₂ = [] then trimRight l₁ else l₁ ++ trimRight l₂ := by
  unfold trimRight
  rw [List.reverse_append, List.dropWhile_append]
  by_cases h : (List.dropWhile isJsWs l₂.reverse).isEmpty = true
  · rw [if_pos h, if_pos]
    rw [List.isEmpty_iff] at h
    rw [h]
    rfl
  · rw [if_neg h, if_neg, List.reverse_append, List.reverse_reverse]
    rw [List.isEmpty_iff] at h
    simpa using h

lemma trimRight_all_not_ws {w : List Char} (h : ∀ c ∈ w, isJsWs c = false) :
    trimRight w = w := by
  unfold trimRight
  rw [dropWhile_eq_self_of_all_false fun c hc => h c (List.mem_reverse.mp hc)]
  exact List.reverse_reverse w

lemma joinWords_cons_cons (w w' : List Char) (ws : List (List Char)) :
    joinWords (w :: w' :: ws) = w ++ ' ' :: joinWords (w' :: ws) := rfl

lemma joinWords_cons_ne_nil {w₀ : List Char} (ws : List (List Char))
    (h : w₀ ≠ []) : joinWords (w₀ :: ws) ≠ [] := by
  cases ws with
  | nil => exact h
  | cons w₁ ws' =>
    show w₀ ++ ' ' :: joinWords (w₁ :: ws') ≠ []
    simp

lemma collapse_append_words : ∀ {w u : List Char},
    (∀ c ∈ w, isJsWs c = false) →
    collapseWsAux false (w ++ u) = w ++ collapseWsAux false u := by
  intro w
  induction w with
  | nil => intro u _; simp
  | cons a w' ih =>
    intro u hw
    rw [List.cons_append,
      show collapseWsAux false (a :: (w' ++ u)) = a :: collapseWsAux false (w' ++ u) by
        simp [collapseWsAux, hw a (List.mem_cons_self _ _)],
      ih fun c hc => hw c (List.mem_cons_of_mem _ hc), List.cons_append]

lemma collapse_cons_word {e : Char} {u : List Char} (he : isJsWs e = false) :
    collapseWs (e :: u) = e :: collapseWsAux false u := by
  simp [collapseWs, collapseWsAux, he]

lemma collapseAux_true_eq : ∀ z : List Char,
    collapseWsAux true z = collapseWs (z.dropWhile isJsWs) := by
  intro z
  induction z with
  | nil => rfl
  | cons e z' ih =>
    by_cases he : isJsWs e = true
    · rw [show collapseWsAux true (e :: z') = collapseWsAux true z' by
        simp [collapseWsAux, he], ih, List.dropWhile_cons_of_pos he]
    · rw [show collapseWsAux true (e :: z') = e :: collapseWsAux false z' by
        simp [collapseWsAux, he], List.dropWhile_cons_of_neg he,
        collapse_cons_word (Bool.eq_false_iff.mpr he)]

lemma collapse_cons_ws {d : Char} {u : List Char} (hd : isJsWs d = true) :
    collapseWs (d :: u) = ' ' :: collapseWs (u.dropWhile isJsWs) := by
  rw [show collapseWs (d :: u) = ' ' :: collapseWsAux true u by
    simp [collapseWs, collapseWsAux, hd], collapseAux_true_eq]

/-- On word/whitespace strings, collapsing whitespace and trimming yields
exactly the single-space join of the word runs. -/
lemma trim_collapse_eq_joinWords_aux : ∀ n : ℕ, ∀ x : List Char, x.length ≤ n →
    (∀ c ∈ x, isWordChar c = true ∨ isJsWs c = true) →
    trimWs (collapseWs x) = joinWords (wordsOf x) := by
  intro n
  induction n with
  | zero =>
    intro x hx _
    rw [List.eq_nil_of_length_eq_zero (Nat.le_zero.mp hx), wordsOf_nil]
    rfl
  | succ n ih =>
    intro x hlen hchars
    cases x with
    | nil =>
      rw [wordsOf_nil]
      rfl
    | cons c rest =>
      have hlen' : rest.length ≤ n := by
        simp only [List.length_cons] at hlen
        omega
      by_cases hcw : isWordChar c = true
      · -- the string starts a word run
        have hw'all : ∀ a ∈ rest.takeWhile isWordChar, isWordChar a = true :=
          fun a ha => List.mem_takeWhile_imp ha
        have hwnws : ∀ a ∈ c :: rest.takeWhile isWordChar, isJsWs a = false := by
          intro a ha
          rcases List.mem_cons.mp ha with rfl | ha'
          · exact word_not_ws hcw
          · exact word_not_ws (hw'all a ha')
        have hsplit : c :: rest =
            (c :: rest.takeWhile isWordChar) ++ rest.dropWhile isWordChar := by
          rw [List.cons_append, List.takeWhile_append_dropWhile]
        have hcol : collapseWs (c :: rest) =
            (c :: rest.takeWhile isWordChar) ++
              collapseWsAux false (rest.dropWhile isWordChar) := by
          conv_lhs => rw [hsplit]
          exact collapse_append_words hwnws
        rw [hcol, wordsOf_cons_word hcw]
        cases hu : rest.dropWhile isWordChar with
        | nil =>
          rw [wordsOf_nil,
            show collapseWsAux false ([] : List Char) = [] from rfl, List.append_nil,
            trimWs_eq,
            show List.dropWhile isJsWs (c :: rest.takeWhile isWordChar) =
              c :: rest.takeWhile isWordChar from
                List.dropWhile_cons_of_neg
                  (by rw [word_not_ws hcw]; exact Bool.false_ne_true),
            trimRight_all_not_ws hwnws]
          rfl
        | cons d u₂ =>
          have hd : isWordChar d = false := dropWhile_head_false hu
          have hdx : d ∈ c :: rest := by
            refine List.mem_cons_of_mem _ ((List.dropWhile_sublist isWordChar).subset ?_)
            rw [hu]
            exact List.mem_cons_self _ _
          have hdws : isJsWs d = true := by
            rcases hchars d hdx with h | h
            · rw [hd] at h
              cases h
            · exact h
          rw [show collapseWsAux false (d :: u₂) =
              ' ' :: collapseWs (u₂.dropWhile isJsWs) by
              rw [show collapseWsAux false (d :: u₂) = ' ' :: collapseWsAux true u₂ by
                  simp [collapseWsAux, hdws], collapseAux_true_eq],
            wordsOf_cons_punct hd, ← wordsOf_dropWhile_ws u₂]
          have hsubchain : ∀ a ∈ u₂.dropWhile isJsWs, a ∈ c :: rest := by
            intro a ha
            have h1 : a ∈ u₂ := (List.dropWhile_sublist isJsWs).subset ha
            have h2 : a ∈ rest.dropWhile isWordChar := by
              rw [hu]
              exact List.mem_cons_of_mem _ h1
            exact List.mem_cons_of_mem _ ((List.dropWhile_sublist isWordChar).subset h2)
          have hu₃chars : ∀ a ∈ u₂.dropWhile isJsWs,
              isWordChar a = true ∨ isJsWs a = true :=
            fun a ha => hchars a (hsubchain a ha)
          have hu₃len : (u₂.dropWhile isJsWs).length ≤ n := by
            have h1 : (u₂.dropWhile isJsWs).length ≤ u₂.length :=
              (List.dropWhile_sublist isJsWs).length_le
            have h2 : (rest.dropWhile isWordChar).length ≤ rest.length :=
              (List.dropWhile_sublist isWordChar).length_le
            rw [hu] at h2
            simp only [List.length_cons] at h2
            omega
          have hIH := ih (u₂.dropWhile isJsWs) hu₃len hu₃chars
          cases hu₃ : u₂.dropWhile isJsWs with
          | nil =>
            rw [wordsOf_nil]
            show trimWs (c :: (rest.takeWhile isWordChar ++ [' '])) = _
            rw [trimWs_eq,
              List.dropWhile_cons_of_neg
                (by rw [word_not_ws hcw]; exact Bool.false_ne_true)]
            show trimRight ((c :: rest.takeWhile isWordChar) ++ [' ']) = _
            rw [trimRight_append, if_pos (by decide), trimRight_all_not_ws hwnws]
            rfl
          | cons e u₄ =>
            rw [hu₃] at hIH
            have he_nws : isJsWs e = false := dropWhile_head_false hu₃
            have he_w : isWordChar e = true := by
              rcases hu₃chars e (by rw [hu₃]; exact List.mem_cons_self _ _) with h | h
              · exact h
              · rw [he_nws] at h
                cases h
            rw [wordsOf_cons_word he_w] at hIH ⊢
            rw [collapse_cons_word he_nws] at hIH ⊢
            have hz : trimWs (e :: collapseWsAux false u₄) =
                trimRight (e :: collapseWsAux false u₄) := by
              rw [trimWs_eq, List.dropWhile_cons_of_neg
                (by rw [he_nws]; exact Bool.false_ne_true)]
            rw [hz] at hIH
            have hne' : trimRight (e :: collapseWsAux false u₄) ≠ [] := by
              rw [hIH]
              exact joinWords_cons_ne_nil _ (by simp)
            rw [trimWs_eq]
            show trimRight (List.dropWhile isJsWs
              (c :: (rest.takeWhile isWordChar ++
                ' ' :: (e :: collapseWsAux false u₄)))) = _
            rw [List.dropWhile_cons_of_neg
              (by rw [word_not_ws hcw]; exact Bool.false_ne_true)]
            have hregroup : (c :: (rest.takeWhile isWordChar ++
                ' ' :: (e :: collapseWsAux false u₄))) =
                ((c :: rest.takeWhile isWordChar) ++ [' ']) ++
                  (e :: collapseWsAux false u₄) := by
              simp [List.append_assoc]
            rw [hregroup, trimRight_append, if_neg hne', hIH,
              joinWords_cons_cons]
            simp [List.append_assoc]
      · have hcf : isWordChar c = false := Bool.eq_false_iff.mpr hcw
        have hcws : isJsWs c = true := by
          rcases hchars c (List.mem_cons_self _ _) with h | h
          · rw [hcf] at h
            cases h
          · exact h
        rw [wordsOf_cons_punct hcf, ← wordsOf_dropWhile_ws rest,
          collapse_cons_ws hcws]
        have hr3 := ih (rest.dropWhile isJsWs)
          (le_trans (List.dropWhile_sublist isJsWs).length_le hlen')
          (fun a ha => hchars a
            (List.mem_cons_of_mem _ ((List.dropWhile_sublist isJsWs).subset ha)))
        rw [trimWs_eq, List.dropWhile_cons_of_pos (by decide), ← trimWs_eq]
        exact hr3

lemma map_toLower_chars {s : List Char}
    (hs : ∀ c ∈ s, isWordChar c = true ∨ isJsWs c = true) :
    ∀ c ∈ s.map Char.toLower, isWordChar c = true ∨ isJsWs c = true := by
  intro c hc
  obtain ⟨c₀, hc₀, rfl⟩ := List.mem_map.mp hc
  rcases hs c₀ hc₀ with h | h
  · exact Or.inl (word_toLower h)
  · rw [ws_toLower h]
    exact Or.inr h

lemma mem_wordsOfChunks {cs : List Chunk} {w : List Char} :
    w ∈ wordsOfChunks cs ↔ Chunk.word w ∈ cs := by
  unfold wordsOfChunks
  rw [List.mem_filterMap]
  constructor
  · rintro ⟨ch, hch, hf⟩
    cases ch with
    | word w' =>
      obtain rfl : w' = w := by simpa using hf
      exact hch
    | punct c => cases hf
  · intro h
    exact ⟨Chunk.word w, h, rfl⟩

lemma mem_joinWords : ∀ {ws : List (List Char)} {c : Char},
    c ∈ joinWords ws → (∃ w ∈ ws, c ∈ w) ∨ c = ' ' := by
  intro ws
  induction ws with
  | nil =>
    intro c hc
    cases hc
  | cons w ws' ih =>
    cases ws' with
    | nil =>
      intro c hc
      exact Or.inl ⟨w, List.mem_cons_self _ _, hc⟩
    | cons w₂ ws'' =>
      intro c hc
      rw [joinWords_cons_cons] at hc
      rcases List.mem_append.mp hc with hc' | hc'
      · exact Or.inl ⟨w, List.mem_cons_self _ _, hc'⟩
      · rcases List.mem_cons.mp hc' with rfl | hc''
        · exact Or.inr rfl
        · rcases ih hc'' with ⟨w', hw', hcw'⟩ | h
          · exact Or.inl ⟨w', List.mem_cons_of_mem _ hw', hcw'⟩
          · exact Or.inr h

lemma wordsOfChunks_chunk_joinWords : ∀ ts : List (List Char),
    (∀ w ∈ ts, w ≠ [] ∧ ∀ c ∈ w, isWordChar c = true) →
    wordsOfChunks (chunk (joinWords ts)) = ts := by
  intro ts
  induction ts with
  | nil =>
    intro _
    rfl
  | cons w ts' ih =>
    intro h
    obtain ⟨hne, hall⟩ := h w (List.mem_cons_self _ _)
    cases ts' with
    | nil =>
      show wordsOfChunks (chunk w) = [w]
      rw [chunk_word_nil hall hne]
      rfl
    | cons w₂ ts'' =>
      show wordsOfChunks (chunk (w ++ ' ' :: joinWords (w₂ :: ts''))) = _
      rw [chunk_word_break hall hne (by decide : isWordChar ' ' = false),
        wordsOfChunks_cons_word, wordsOfChunks_cons_punct,
        ih fun w' hw' => h w' (List.mem_cons_of_mem _ hw')]

/-- On word/whitespace inputs, the normalizer returns exactly the
space-separated join of the lowercased tokens that are not legal suffixes. -/
lemma normalize_eq_joinWords {s : List Char}
    (hs : ∀ c ∈ s, isWordChar c = true ∨ isJsWs c = true) :
    normalizeCompanyName s =
      joinWords ((wordsOfChunks (chunk (s.map Char.toLower))).filter
        fun w => !decide (w ∈ suffixTokens)) := by
  have htchars := map_toLower_chars hs
  have hok := chunk_ok (fun c => c ∈ s.map Char.toLower) (fun c hc => hc)
  have hwordchunks : ∀ w, Chunk.word w ∈ chunk (s.map Char.toLower) →
      w ≠ [] ∧ ∀ c ∈ w, isWordChar c = true := by
    intro w hw
    have h := hok _ hw
    exact ⟨h.1, fun c hc => (h.2 c hc).1⟩
  have hpunct_ws : ∀ c, Chunk.punct c ∈ chunk (s.map Char.toLower) →
      isJsWs c = true := by
    intro c hc
    obtain ⟨hnw, hmem⟩ := hok _ hc
    rcases htchars c hmem with h | h
    · rw [hnw] at h
      cases h
    · exact h
  have hdot : ∀ c, Chunk.punct c ∈ chunk (s.map Char.toLower) → c ≠ '.' := by
    intro c hc heq
    have h := hpunct_ws c hc
    rw [heq] at h
    exact absurd h (by decide)
  have hstrip : stripChunks (chunk (s.map Char.toLower)) =
      (chunk (s.map Char.toLower)).filter stripPred :=
    stripAux_eq_filter _ hdot false
  have hw' : ∀ w, Chunk.word w ∈ (chunk (s.map Char.toLower)).filter stripPred →
      w ≠ [] ∧ ∀ c ∈ w, isWordChar c = true :=
    fun w hw => hwordchunks w (List.mem_of_mem_filter hw)
  have hp' : ∀ c, Chunk.punct c ∈ (chunk (s.map Char.toLower)).filter stripPred →
      isWordChar c = false :=
    fun c hc => (hok _ (List.mem_of_mem_filter hc)).1
  have hchain' : NoAdjWords ((chunk (s.map Char.toLower)).filter stripPred) :=
    noAdj_filter (chunk_noAdj _)
  have hx'or : ∀ c ∈ unChunks ((chunk (s.map Char.toLower)).filter stripPred),
      isWordChar c = true ∨ isJsWs c = true := by
    intro c hc
    rcases mem_unChunks.mp hc with ⟨w, hw, hcw⟩ | hp
    · exact Or.inl ((hw' w hw).2 c hcw)
    · exact Or.inr (hpunct_ws c (List.mem_of_mem_filter hp))
  have hfil : (unChunks ((chunk (s.map Char.toLower)).filter stripPred)).filter
      (fun c => isWordChar c || isJsWs c) =
      unChunks ((chunk (s.map Char.toLower)).filter stripPred) :=
    List.filter_eq_self.mpr fun a ha => by
      rcases hx'or a ha with h | h <;> simp [h]
  show trimWs (collapseWs
    ((unChunks (stripChunks (chunk (s.map Char.toLower)))).filter
      fun c => isWordChar c || isJsWs c)) = _
  rw [hstrip, hfil,
    trim_collapse_eq_joinWords_aux
      (unChunks ((chunk (s.map Char.toLower)).filter stripPred)).length _ le_rfl hx'or,
    wordsOf_unChunks _ hw' hp' hchain', wordsOfChunks_filter]

/-- Claim C5, counterexample: normalization is not idempotent.  For the
input `"c-o"`, the first pass strips no suffix token but the punctuation
stage joins `"c"` and `"o"` into the new token `"co"`, which the second
pass deletes as a legal suffix: `normalize("c-o") = "co"` while
`normalize(normalize("c-o")) = ""`. -/
theorem normalize_not_idempotent :
    normalizeCompanyName (normalizeCompanyName (str "c-o")) ≠
      normalizeCompanyName (str "c-o") := by
  decide

set_option maxHeartbeats 1000000 in
/-- Claim C5 (amended): the normalizer is idempotent on every string whose
characters are word characters (`[A-Za-z0-9_]`) or whitespace — i.e. on
inputs where the punctuation-stripping stage cannot create new tokens.  On
such inputs the output is the space-separated join of the lowercased
non-suffix tokens, which normalizes to itself. -/
theorem normalize_idempotent_on_word_ws (s : List Char)
    (hs : ∀ c ∈ s, isWordChar c = true ∨ isJsWs c = true) :
    normalizeCompanyName (normalizeCompanyName s) = normalizeCompanyName s := by
  have h1 := normalize_eq_joinWords hs
  have hok := chunk_ok (fun c => c ∈ s.map Char.toLower) (fun c hc => hc)
  have htok : ∀ w ∈ (wordsOfChunks (chunk (s.map Char.toLower))).filter
      (fun w => !decide (w ∈ suffixTokens)),
      w ≠ [] ∧ ∀ c ∈ w, isWordChar c = true ∧ c ∈ s.map Char.toLower := by
    intro w hw
    have hw1 : Chunk.word w ∈ chunk (s.map Char.toLower) :=
      mem_wordsOfChunks.mp (List.mem_of_mem_filter hw)
    exact hok _ hw1
  have hychars : ∀ c ∈ joinWords ((wordsOfChunks (chunk (s.map Char.toLower))).filter
      (fun w => !decide (w ∈ suffixTokens))),
      isWordChar c = true ∨ isJsWs c = true := by
    intro c hc
    rcases mem_joinWords hc with ⟨w, hw, hcw⟩ | rfl
    · exact Or.inl ((htok w hw).2 c hcw).1
    · exact Or.inr (by decide)
  have h2 := normalize_eq_joinWords hychars
  have hyfix : (joinWords ((wordsOfChunks (chunk (s.map Char.toLower))).filter
      (fun w => !decide (w ∈ suffixTokens)))).map Char.toLower =
      joinWords ((wordsOfChunks (chunk (s.map Char.toLower))).filter
        (fun w => !decide (w ∈ suffixTokens))) := by
    have hfix : ∀ c ∈ joinWords ((wordsOfChunks (chunk (s.map Char.toLower))).filter
        (fun w => !decide (w ∈ suffixTokens))), Char.toLower c = c := by
      intro c hc
      rcases mem_joinWords hc with ⟨w, hw, hcw⟩ | rfl
      · obtain ⟨c₀, -, rfl⟩ := List.mem_map.mp ((htok w hw).2 c hcw).2
        exact toLower_toLower c₀
      · decide
    rw [List.map_congr_left hfix]
    exact List.map_id' _
  rw [hyfix] at h2
  rw [wordsOfChunks_chunk_joinWords _
    (fun w hw => ⟨(htok w hw).1, fun c hc => ((htok w hw).2 c hc).1⟩)] at h2
  have hts : ∀ l : List (List Char),
      (l.filter fun w => !decide (w ∈ suffixTokens)).filter
        (fun w => !decide (w ∈ suffixTokens)) =
      l.filter fun w => !decide (w ∈ suffixTokens) :=
    fun l => List.filter_eq_self.mpr fun w hw => (List.mem_filter.mp hw).2
  rw [hts] at h2
  rw [h1]
  exact h2

/-- Witness for the amended claim C5 at the input `"Acme Co"`. -/
theorem normalize_idempotent_on_word_ws_witness :
    normalizeCompanyName (normalizeCompanyName (str "Acme Co")) =
      normalizeCompanyName (str "Acme Co") :=
  normalize_idempotent_on_word_ws (str "Acme Co") (by decide)

end SamApp
